import Mathlib

/-!
Verification development for the `contiguous_map` Rust crate.

The crate stores a map from integer-like keys to values inside a
`BTreeMap<K, Vec<V>>`: each entry `(k, vec)` is a "region", a maximal run of
contiguous keys `k, k+1, …, k + vec.len() - 1`.  This file gives a shallow
embedding of the library:

* keys are modelled as natural numbers bounded by a maximum key `M`
  (the image of any of the crate's fixed-width unsigned key types; the
  signed and width-sensitive `Key` implementations of `src/key.rs` are
  embedded separately at the end of the definitions section);
* the backing `BTreeMap` is modelled as a list of `(key, values)` entries
  kept sorted by strictly increasing key, and its primitive operations
  (`range(..=k).next_back()`, `range(k..).next()`, `insert`, `remove`,
  `get`, range deletion) are embedded as recursive functions on such lists;
* the `ContiguousMap` operations of `src/lib.rs` and the iterator engine of
  `src/iter.rs` are translated on top of those primitives, case by case.

`Option` results mirror the Rust `Option`s.  A Rust `panic!` reachable from
a public entry point (`slice::chunks_exact` with chunk size 0) is modelled by
`Except.error ()`; `unwrap`/`expect` calls that the sources justify by the
map invariant are modelled with `Option.getD` fallbacks that are only ever
exercised when that invariant is broken.
-/

set_option maxHeartbeats 1000000

namespace ContigMap

/-! ### Key model

`unsigned_key_impl!` in `src/key.rs` implements `Key` for the unsigned
integer types; on keys drawn from `{0, …, M}` (with `M` the type's maximum
value, and a `usize` at least as wide as the key type, as holds for the map
model's `u8 … u64`/`usize` instantiations):
`add_one` is `checked_add(1)`, `difference` is `checked_sub`, and
`add_usize` is a checked addition. -/

def keyAddOne (M k : Nat) : Option Nat :=
  if k + 1 ≤ M then some (k + 1) else none

def keyDifference (k smaller : Nat) : Option Nat :=
  if smaller ≤ k then some (k - smaller) else none

def keyAddUsize (M k n : Nat) : Option Nat :=
  if k + n ≤ M then some (k + n) else none

/-- Modelled from the spec: `Key::sub_one` is called by
`ContiguousMap::find_less` in `src/lib.rs`, but no definition of it appears
in the sources under `src/` (the `Key` trait in `src/key.rs` only declares
`add_one`, `difference` and `add_usize`).  Per §3 of the spec it is the
optional `predecessor()` operation: "the previous key, or none if this is
the minimum key". -/
def keySubOne (k : Nat) : Option Nat :=
  if 0 < k then some (k - 1) else none

/-- `key.add_one().unwrap()` / `.expect(…)` on paths where the sources argue
the successor must exist; the fallback value is only reached when the map
invariant is broken. -/
def succUnwrap (M k : Nat) : Nat :=
  (keyAddOne M k).getD (k + 1)

/-- `key.add_usize(n).unwrap()` on paths where the sources argue the offset
stays in the key domain. -/
def addUnwrap (M k n : Nat) : Nat :=
  (keyAddUsize M k n).getD (k + n)

/-! ### The backing ordered map

`BTreeMap<K, Vec<V>>` is modelled as a list of entries sorted by strictly
increasing key.  Each primitive below embeds the corresponding `BTreeMap`
operation used by `src/lib.rs`. -/

/-- One region: its starting key and its non-empty run of values. -/
abbrev Entry (V : Type u) := Nat × List V

/-- The `ContiguousMap`'s state: the backing sorted map of regions. -/
abbrev ContiguousMap (V : Type u) := List (Entry V)

/-- `self.map.range(..=key).next_back()`: the entry with the greatest key
that is at most `key` (the entry list is sorted by key). -/
def btFindLE : ContiguousMap V → Nat → Option (Entry V)
  | [], _ => none
  | e :: rest, key =>
    if e.1 ≤ key then some ((btFindLE rest key).getD e) else none

/-- `self.map.range(key..).next()`: the entry with the least key that is at
least `key`. -/
def btFindGE : ContiguousMap V → Nat → Option (Entry V)
  | [], _ => none
  | e :: rest, key => if key ≤ e.1 then some e else btFindGE rest key

/-- `self.map.get(&k)`. -/
def btGet : ContiguousMap V → Nat → Option (List V)
  | [], _ => none
  | e :: rest, k => if e.1 = k then some e.2 else btGet rest k

/-- `self.map.insert(k, v)`: insert or overwrite the entry with key `k`,
keeping the entry list sorted. -/
def btInsert : ContiguousMap V → Nat → List V → ContiguousMap V
  | [], k, v => [(k, v)]
  | e :: rest, k, v =>
    if k < e.1 then (k, v) :: e :: rest
    else if k = e.1 then (k, v) :: rest
    else e :: btInsert rest k v

/-- `self.map.remove(&k)`'s effect on the map: drop the entry with key `k`,
if present. -/
def btRemove : ContiguousMap V → Nat → ContiguousMap V
  | [], _ => []
  | e :: rest, k => if e.1 = k then rest else e :: btRemove rest k

/-- Net effect of `clear_range`'s removal loop
`while let Some((key, _)) = self.map.range((Excluded(&start.key),
Excluded(&end.key))).next() { … self.map.remove(&key) … }`: each pass deletes
the first remaining entry with `a < key < b`, so the loop ends with exactly
the entries outside the open interval, in their original order. -/
def btClearBetween (l : ContiguousMap V) (a b : Nat) : ContiguousMap V :=
  l.filter (fun e => decide (e.1 ≤ a ∨ b ≤ e.1))

/-! ### Index resolution (`Index<K>` and the `find*` family of `src/lib.rs`)

`Index` is a `(region start key, offset)` pair; its derived `Ord` compares
lexicographically. -/

/-- The derived lexicographic order on `Index { key, offset }`. -/
def idxLE (a b : Nat × Nat) : Prop :=
  a.1 < b.1 ∨ (a.1 = b.1 ∧ a.2 ≤ b.2)

instance (a b : Nat × Nat) : Decidable (idxLE a b) := by
  unfold idxLE; infer_instance

/-- `ContiguousMap::first`. -/
def first (m : ContiguousMap V) : Option (Nat × Nat) :=
  m.head?.map (fun e => (e.1, 0))

/-- `ContiguousMap::last`. -/
def last (m : ContiguousMap V) : Option (Nat × Nat) :=
  m.getLast?.map (fun e => (e.1, e.2.length - 1))

/-- `ContiguousMap::find`. -/
def find (m : ContiguousMap V) (key : Nat) : Option (Nat × Nat) :=
  match btFindLE m key with
  | none => none
  | some e =>
    match keyDifference key e.1 with
    | none => none
    | some off => if off ≥ e.2.length then none else some (e.1, off)

/-- `ContiguousMap::find_at_most`. -/
def find_at_most (m : ContiguousMap V) (key : Nat) : Option (Nat × Nat) :=
  match btFindLE m key with
  | none => none
  | some e =>
    (keyDifference key e.1).map (fun off => (e.1, min off (e.2.length - 1)))

/-- `ContiguousMap::find_less`. -/
def find_less (m : ContiguousMap V) (key : Nat) : Option (Nat × Nat) :=
  (keySubOne key).bind (find_at_most m)

/-- `ContiguousMap::find_at_least`. -/
def find_at_least (m : ContiguousMap V) (key : Nat) : Option (Nat × Nat) :=
  match find m key with
  | some i => some i
  | none => (btFindGE m key).map (fun e => (e.1, 0))

/-- `ContiguousMap::find_more`. -/
def find_more (M : Nat) (m : ContiguousMap V) (key : Nat) : Option (Nat × Nat) :=
  (keyAddOne M key).bind (find_at_least m)

/-- A start or end bound of a key range (`std::ops::Bound`). -/
inductive Bd where
  | incl : Nat → Bd
  | excl : Nat → Bd
  | unb : Bd

/-- A pair of range bounds (`std::ops::RangeBounds`). -/
structure RB where
  lo : Bd
  hi : Bd

/-- `ContiguousMap::find_range`. -/
def find_range (M : Nat) (m : ContiguousMap V) (r : RB) :
    Option ((Nat × Nat) × (Nat × Nat)) :=
  match (match r.lo with
         | .excl s => find_more M m s
         | .incl s => find_at_least m s
         | .unb => first m) with
  | none => none
  | some s =>
    match (match r.hi with
           | .excl e => find_less m e
           | .incl e => find_at_most m e
           | .unb => last m) with
    | none => none
    | some e => if idxLE s e then some (s, e) else none

/-! ### Mutation engine -/

/-- The fallthrough path of `ContiguousMap::insert` ("No insertion point
already exists in the map"): build `vec![value]`, absorb the entry starting
at `key + 1` if there is one, and insert the result at `key`. -/
def insertFresh (M : Nat) (m : ContiguousMap V) (key : Nat) (value : V) :
    ContiguousMap V × Option V :=
  match keyAddOne M key with
  | some k1 =>
    match btGet m k1 with
    | some vs1 => (btInsert (btRemove m k1) key (value :: vs1), none)
    | none => (btInsert m key [value], none)
  | none => (btInsert m key [value], none)

/-- `ContiguousMap::insert`. -/
def insert (M : Nat) (m : ContiguousMap V) (key : Nat) (value : V) :
    ContiguousMap V × Option V :=
  match btFindLE m key with
  | some e =>
    match keyDifference key e.1 with
    | some idx =>
      if h : idx < e.2.length then
        -- Ordering::Less — overwriting a value in insertion_entry
        (btInsert m e.1 (e.2.set idx value), some (e.2.get ⟨idx, h⟩))
      else if idx = e.2.length then
        -- Ordering::Equal — append, then merge with the entry at key + 1
        (match keyAddOne M key with
         | some k1 =>
           match btGet (btInsert m e.1 (e.2 ++ [value])) k1 with
           | some vs1 =>
             btInsert (btRemove (btInsert m e.1 (e.2 ++ [value])) k1) e.1
               (e.2 ++ [value] ++ vs1)
           | none => btInsert m e.1 (e.2 ++ [value])
         | none => btInsert m e.1 (e.2 ++ [value]), none)
      else
        -- Ordering::Greater — insertion_entry can not contain our key
        insertFresh M m key value
    | none => insertFresh M m key value
  | none => insertFresh M m key value

/-- `ContiguousMap::insert_slice`. -/
def insert_slice (M : Nat) (m : ContiguousMap V) (key : Nat) :
    List V → ContiguousMap V
  | [] => m
  | v :: vs =>
    match keyAddOne M key with
    | some k2 => insert_slice M (insert M m key v).1 k2 vs
    | none => (insert M m key v).1

/-- `ContiguousMap::remove`. -/
def remove (M : Nat) (m : ContiguousMap V) (key : Nat) :
    ContiguousMap V × Option V :=
  match btFindLE m key with
  | none => (m, none)
  | some e =>
    match keyDifference key e.1 with
    | none => (m, none)
    | some idx =>
      if e.2.length - 1 < idx then
        -- Ordering::Greater — index out of bounds
        (m, none)
      else if idx = e.2.length - 1 then
        -- Ordering::Equal — pop the trailing value, dropping the entry if
        -- it becomes empty (then key = e.1, as idx = 0)
        ((if e.2.dropLast.isEmpty then btRemove m key
          else btInsert m e.1 e.2.dropLast),
         e.2.getLast?)
      else if idx = 0 then
        -- front removal: re-insert the suffix under the next adjacent key
        (btInsert (btRemove m key) (succUnwrap M e.1) e.2.tail, e.2.head?)
      else
        -- interior removal: split off the tail as a brand-new entry
        (btInsert (btInsert m e.1 (e.2.take idx)) (succUnwrap M key)
           (e.2.drop (idx + 1)),
         e.2[idx]?)

/-- `ContiguousMap::clear`. -/
def clear (_ : ContiguousMap V) : ContiguousMap V := []

/-- `ContiguousMap::clear_range`. -/
def clear_range (M : Nat) (m : ContiguousMap V) (r : RB) : ContiguousMap V :=
  match find_range M m r with
  | none => m
  | some (s, e) =>
    if s.1 = e.1 then
      -- entire removal is in a single region
      let vs := (btGet m s.1).getD []
      if s.2 = 0 then
        if e.2 = vs.length - 1 then
          btRemove m s.1
        else
          -- rotate_left (e.2 + 1) then truncate: keep the tail, re-keyed
          btInsert (btRemove m s.1) (succUnwrap M (addUnwrap M e.1 e.2))
            (vs.drop (e.2 + 1))
      else
        if e.2 = vs.length - 1 then
          btInsert m s.1 (vs.take s.2)
        else
          btInsert (btInsert m s.1 (vs.take s.2))
            (succUnwrap M (addUnwrap M e.1 e.2)) (vs.drop (e.2 + 1))
    else
      -- removal spans multiple regions
      let m1 := if s.2 = 0 then btRemove m s.1
                else btInsert m s.1 (((btGet m s.1).getD []).take s.2)
      let m2 := btClearBetween m1 s.1 e.1
      let ve := (btGet m2 e.1).getD []
      if ve.length - 1 = e.2 then btRemove m2 e.1
      else btInsert (btRemove m2 e.1) (succUnwrap M (addUnwrap M e.1 e.2))
        (ve.drop (e.2 + 1))

/-- `ContiguousMap::clear_with_len`. -/
def clear_with_len (M : Nat) (m : ContiguousMap V) (start n : Nat) :
    ContiguousMap V :=
  match keyAddUsize M start n with
  | none => clear_range M m ⟨Bd.incl start, Bd.unb⟩
  | some e => clear_range M m ⟨Bd.incl start, Bd.excl e⟩

/-! ### Read queries -/

/-- `ContiguousMap::get`. -/
def get (m : ContiguousMap V) (key : Nat) : Option V :=
  match btFindLE m key with
  | none => none
  | some e => (keyDifference key e.1).bind (fun idx => e.2[idx]?)

/-- `ContiguousMap::len`. -/
def len (m : ContiguousMap V) : Nat :=
  (m.map (fun e => e.2.length)).sum

/-- `ContiguousMap::is_empty`. -/
def is_empty (m : ContiguousMap V) : Bool := m.isEmpty

/-- `ContiguousMap::num_contiguous_regions`. -/
def num_contiguous_regions (m : ContiguousMap V) : Nat := m.length

/-- `slice.chunks_exact(size).next()`.  `chunks_exact` panics when `size` is
zero (modelled by `Except.error ()`); otherwise `next()` yields the first
`size` elements if the slice holds at least that many, and none otherwise. -/
def chunksExactNext (size : Nat) (l : List V) : Except Unit (Option (List V)) :=
  if size = 0 then .error ()
  else .ok (if size ≤ l.length then some (l.take size) else none)

/-- `ContiguousMap::get_slice` for a range with inclusive start `start` and
end bound `stop` (`InclusiveStartRangeBounds`). -/
def get_slice (m : ContiguousMap V) (start : Nat) (stop : Bd) :
    Except Unit (Option (List V)) :=
  match btFindLE m start with
  | none => .ok none
  | some e =>
    match keyDifference start e.1 with
    | none => .ok none
    | some off =>
      if off < e.2.length then
        match (match stop with
               | .unb => some (e.2.drop off).length
               | .excl stop => keyDifference stop start
               | .incl stop => (keyDifference stop start).map (· + 1)) with
        | none => .ok none
        | some length => chunksExactNext length (e.2.drop off)
      else .ok none

/-- `ContiguousMap::get_slice_with_len`. -/
def get_slice_with_len (m : ContiguousMap V) (key n : Nat) :
    Except Unit (Option (List V)) :=
  match get_slice m key Bd.unb with
  | .error u => .error u
  | .ok none => .ok none
  | .ok (some slice) => chunksExactNext n slice

/-! ### Iteration engine (`src/iter.rs`)

The per-value iterators (`IntoIter` and friends) drive three sources: a
front cursor, the underlying region iterator, and a back cursor.  A cursor
is a `(current key, remaining values)` pair; the region iterator is the list
of regions not yet converted into a cursor. -/

/-- The state of a per-value iterator. -/
structure IterState (V : Type u) where
  front : Option (Nat × List V)
  mapIter : List (Entry V)
  back : Option (Nat × List V)

/-- `ContiguousMap::iter` / `into_iter`: both cursors start empty. -/
def iterInit (m : ContiguousMap V) : IterState V :=
  ⟨none, m, none⟩

/-- The refill loop of `next_impl`: with the front cursor empty, keep
pulling regions from the front of the region iterator (then, once it is
exhausted, adopt the back cursor) until a value can be yielded.  On a yield
the cursor key advances by `add_one` unless the cursor is exhausted, in
which case the cursor is cleared. -/
def refillFront : List (Entry V) → Option (Nat × List V) →
    Option ((Nat × V) × IterState V)
  | [], back =>
    match back with
    | some (k, v :: rest) =>
      some ((k, v), ⟨if rest.isEmpty then none else some (k + 1, rest), [], none⟩)
    | _ => none
  | e :: mrest, back =>
    match e with
    | (k, v :: rest) =>
      some ((k, v),
        ⟨if rest.isEmpty then none else some (k + 1, rest), mrest, back⟩)
    | _ => refillFront mrest back

/-- `next_impl` of `src/iter.rs`. -/
def nextImpl (st : IterState V) : Option ((Nat × V) × IterState V) :=
  match st.front with
  | some (k, v :: rest) =>
    some ((k, v),
      ⟨if rest.isEmpty then none else some (k + 1, rest), st.mapIter, st.back⟩)
  | _ => refillFront st.mapIter st.back

/-- The refill loop of `next_back_impl`, processing the region iterator from
its back; the argument list is the remaining regions in reversed order.  A
yield takes the last remaining value of the cursor and computes its key as
`key.add_usize(iter.len()).unwrap()`; the consumed cursor (possibly now
empty) stays in place. -/
def refillBackRev (front : Option (Nat × List V)) :
    List (Entry V) → Option ((Nat × V) × IterState V)
  | [] =>
    match front with
    | some (k, v :: rest) =>
      some ((k + ((v :: rest).length - 1), rest.getLastD v),
        ⟨none, [], some (k, (v :: rest).dropLast)⟩)
    | _ => none
  | e :: rrest =>
    match e with
    | (k, v :: rest) =>
      some ((k + ((v :: rest).length - 1), rest.getLastD v),
        ⟨front, rrest.reverse, some (k, (v :: rest).dropLast)⟩)
    | _ => refillBackRev front rrest

/-- `next_back_impl` of `src/iter.rs`. -/
def nextBackImpl (st : IterState V) : Option ((Nat × V) × IterState V) :=
  match st.back with
  | some (k, v :: rest) =>
    some ((k + ((v :: rest).length - 1), rest.getLastD v),
      ⟨st.front, st.mapIter, some (k, (v :: rest).dropLast)⟩)
  | _ => refillBackRev st.front st.mapIter.reverse

/-- Total number of values a state has left to yield. -/
def stSize (st : IterState V) : Nat :=
  (match st.front with | some f => f.2.length | none => 0) +
  ((st.mapIter.map (fun e => e.2.length)).sum +
   (match st.back with | some b => b.2.length | none => 0))

/-- Drive `next()` until exhaustion, with enough fuel; every call to
`nextImpl` that yields strictly shrinks `stSize`, so `stSize st` fuel always
reaches exhaustion (`forwardGo_eq` below). -/
def forwardGo : Nat → IterState V → List (Nat × V)
  | 0, _ => []
  | fuel + 1, st =>
    match nextImpl st with
    | none => []
    | some (p, st') => p :: forwardGo fuel st'

/-- `iter().collect()`: drive `next()` until exhaustion. -/
def forwardList (st : IterState V) : List (Nat × V) :=
  forwardGo (stSize st) st

/-- Drive `next_back()` until exhaustion, with enough fuel. -/
def backwardGo : Nat → IterState V → List (Nat × V)
  | 0, _ => []
  | fuel + 1, st =>
    match nextBackImpl st with
    | none => []
    | some (p, st') => p :: backwardGo fuel st'

/-- `iter().rev().collect()`: drive `next_back()` until exhaustion. -/
def backwardList (st : IterState V) : List (Nat × V) :=
  backwardGo (stSize st) st

/-- Drive one iterator with an arbitrary interleaving of `next()` (`true`)
and `next_back()` (`false`) calls; returns the values yielded from the
front (in yield order), the values yielded from the back (in yield order),
and the final state. -/
def drive : List Bool → IterState V →
    List (Nat × V) × List (Nat × V) × IterState V
  | [], st => ([], [], st)
  | c :: cs, st =>
    if c then
      match nextImpl st with
      | some (p, st') => let r := drive cs st'; (p :: r.1, r.2.1, r.2.2)
      | none => drive cs st
    else
      match nextBackImpl st with
      | some (p, st') => let r := drive cs st'; (r.1, p :: r.2.1, r.2.2)
      | none => drive cs st

/-- The `(key, value)` pairs of one region, in ascending key order. -/
def pairsFrom (k : Nat) : List V → List (Nat × V)
  | [] => []
  | v :: vs => (k, v) :: pairsFrom (k + 1) vs

/-- All `(key, value)` pairs of a map, in ascending key order. -/
def toPairs : ContiguousMap V → List (Nat × V)
  | [] => []
  | e :: rest => pairsFrom e.1 e.2 ++ toPairs rest

/-- The pairs a cursor has left to yield. -/
def curPairs : Option (Nat × List V) → List (Nat × V)
  | none => []
  | some (k, vs) => pairsFrom k vs

/-- The pairs an iterator state has left to yield, in forward order: the
front cursor's, then the unconverted regions', then the back cursor's. -/
def stPairs (st : IterState V) : List (Nat × V) :=
  curPairs st.front ++ (toPairs st.mapIter ++ curPairs st.back)

/-! ### The map invariant -/

/-- Region `a` ends strictly before the key preceding region `b`'s start:
regions neither overlap nor touch. -/
def GapR (a b : Entry V) : Prop :=
  a.1 + a.2.length < b.1

instance (a b : Entry V) : Decidable (GapR a b) := by
  unfold GapR; infer_instance

/-- A region is non-empty and stays inside the key domain `{0, …, M}`. -/
def EntryOk (M : Nat) (e : Entry V) : Prop :=
  e.2 ≠ [] ∧ e.1 + e.2.length ≤ M + 1

instance (M : Nat) (e : Entry V) : Decidable (EntryOk M e) :=
  decidable_of_iff (e.2.length ≠ 0 ∧ e.1 + e.2.length ≤ M + 1)
    (by simp [EntryOk, List.length_eq_zero])

/-- The internal invariant of a `ContiguousMap` with key domain
`{0, …, M}`. -/
def Inv (M : Nat) (m : ContiguousMap V) : Prop :=
  m.Pairwise GapR ∧ ∀ e ∈ m, EntryOk M e

instance (M : Nat) (m : ContiguousMap V) : Decidable (Inv M m) := by
  unfold Inv; infer_instance

/-- The backing map's entries are sorted by strictly increasing key (as a
`BTreeMap`'s always are). -/
def KSorted (m : ContiguousMap V) : Prop :=
  m.Pairwise (fun a b => a.1 < b.1)

/-- Region `e` stores a value for key `k`. -/
def covers (e : Entry V) (k : Nat) : Prop :=
  e.1 ≤ k ∧ k < e.1 + e.2.length

instance (e : Entry V) (k : Nat) : Decidable (covers e k) := by
  unfold covers; infer_instance

/-- Some region of `m` stores a value for key `k`. -/
def covered (m : ContiguousMap V) (k : Nat) : Prop :=
  ∃ e, e ∈ m ∧ covers e k

instance (m : ContiguousMap V) (k : Nat) : Decidable (covered m k) := by
  unfold covered
  infer_instance

/-- An `Index` names an existing entry and an in-bounds offset within it. -/
def ValidIdx (m : ContiguousMap V) (i : Nat × Nat) : Prop :=
  ∃ vs, (i.1, vs) ∈ m ∧ i.2 < vs.length

/-! ### Operation sequences (for the invariant-preservation claim) -/

/-- One public mutating operation. -/
inductive Op (V : Type u) where
  | ins : Nat → V → Op V
  | insSlice : Nat → List V → Op V
  | rem : Nat → Op V
  | clr : Op V
  | clrRange : RB → Op V
  | clrLen : Nat → Nat → Op V

/-- Apply one operation to a map state. -/
def applyOp (M : Nat) (m : ContiguousMap V) : Op V → ContiguousMap V
  | .ins k v => (insert M m k v).1
  | .insSlice k vs => insert_slice M m k vs
  | .rem k => (remove M m k).1
  | .clr => clear m
  | .clrRange r => clear_range M m r
  | .clrLen k n => clear_with_len M m k n

/-- The key arguments a caller can pass are key-typed, hence inside the key
domain (the remaining arguments are unconstrained). -/
def OpValid (M : Nat) : Op V → Prop
  | .ins k _ => k ≤ M
  | .insSlice k _ => k ≤ M
  | .rem k => k ≤ M
  | .clr => True
  | .clrRange _ => True
  | .clrLen k _ => k ≤ M

instance (M : Nat) (op : Op V) : Decidable (OpValid M op) := by
  unfold OpValid; cases op <;> infer_instance

/-- Run a sequence of operations from the empty map. -/
def applyOps (M : Nat) (ops : List (Op V)) : ContiguousMap V :=
  ops.foldl (applyOp M) []

/-! ### Spec-side description of `insert_slice` (for the refinement claim)

The spec words `insert_slice` as: sequentially call `insert` for
`start_key, start_key.successor(), …`, one key per value in order, stopping
early and silently if a successor computation overflows the key domain
before all values are placed. -/

/-- The key sequence `s, s.successor(), …` for `n` values, cut short where
the successor overflows. -/
def specKeys (M s : Nat) : Nat → List Nat
  | 0 => []
  | n + 1 =>
    s :: (match keyAddOne M s with
          | some s2 => specKeys M s2 n
          | none => [])

/-- The spec's wording of `insert_slice`: pair each value with its key in
the successor chain (values left without a key are dropped) and perform the
inserts in order. -/
def specInsertSeq (M : Nat) (m : ContiguousMap V) (s : Nat) (vs : List V) :
    ContiguousMap V :=
  ((specKeys M s vs.length).zip vs).foldl
    (fun acc kv => (insert M acc kv.1 kv.2).1) m

/-! ### The fixed-width `Key` implementations of `src/key.rs`

`unsigned_key_impl!` instantiates `Key` for `u8 … u128` and `usize`: a
value of such a type is a natural number at most `tmax`, and a `usize`
value is a natural number at most `umax` (`tmax` and `umax` are
`2^width - 1` for the respective widths; both the `usize`-narrower and the
`usize`-wider combinations are modelled).  `signed_key_impl!` instantiates
`Key` for `i8 … i128` and `isize`: with `B = 2^(width-1)` a value is an
integer in `[-B, B - 1]`, `unsigned_abs()` is `Int.natAbs`, and the
unsigned counterpart type holds naturals up to `2*B - 1`. -/

/-- Unsigned `add_one`: `self.checked_add(1)`. -/
def uAddOne (tmax a : Nat) : Option Nat :=
  if a + 1 ≤ tmax then some (a + 1) else none

/-- Unsigned `difference`: `self.checked_sub(*smaller)` followed by
`try_into::<usize>()`. -/
def uDifference (umax a smaller : Nat) : Option Nat :=
  if smaller ≤ a then
    if a - smaller ≤ umax then some (a - smaller) else none
  else none

/-- Unsigned `add_usize`: `self.checked_add(num.try_into().ok()?)`. -/
def uAddUsize (tmax a n : Nat) : Option Nat :=
  if n ≤ tmax then
    if a + n ≤ tmax then some (a + n) else none
  else none

/-- Signed `add_one`: `self.checked_add(1)` with maximum value `B - 1`. -/
def sAddOne (B : Nat) (a : Int) : Option Int :=
  if a + 1 ≤ (B : Int) - 1 then some (a + 1) else none

/-- Signed `difference`: the four-way sign match of `src/key.rs`, computing
in the unsigned counterpart type (maximum `2*B - 1`), followed by
`try_into::<usize>()`. -/
def sDifference (B umax : Nat) (a smaller : Int) : Option Nat :=
  (if a < 0 then
    if smaller < 0 then
      -- both negative: smaller.unsigned_abs().checked_sub(self.unsigned_abs())
      if a.natAbs ≤ smaller.natAbs then some (smaller.natAbs - a.natAbs)
      else none
    else
      -- self negative, smaller non-negative, so self < smaller
      none
  else
    if smaller < 0 then
      -- self non-negative, smaller negative:
      -- self.unsigned_abs().checked_add(smaller.unsigned_abs())
      if a.natAbs + smaller.natAbs ≤ 2 * B - 1 then
        some (a.natAbs + smaller.natAbs)
      else none
    else
      -- both non-negative
      if smaller.natAbs ≤ a.natAbs then some (a.natAbs - smaller.natAbs)
      else none).bind
    (fun u => if u ≤ umax then some u else none)

/-- Signed `add_usize`: the sign-split algorithm of `src/key.rs`, including
the `num == 0` special case of the negative-result branch. -/
def sAddUsize (B : Nat) (a : Int) (n : Nat) : Option Int :=
  if 0 ≤ a then
    -- num.try_into::<T>() (maximum B - 1), then checked_add in T
    if n ≤ B - 1 then
      if a + (n : Int) ≤ (B : Int) - 1 then some (a + (n : Int)) else none
    else none
  else
    -- num.try_into::<U>() (maximum 2*B - 1)
    if n ≤ 2 * B - 1 then
      if a.natAbs ≤ n then
        -- the sum is non-negative: (num - negated_self).try_into::<T>()
        if n - a.natAbs ≤ B - 1 then some ((n - a.natAbs : Nat) : Int)
        else none
      else
        if n = 0 then some a
        else
          -- `0 - negated_result as Self`: the `as` cast wraps modulo 2*B
          some (0 - (if a.natAbs - n < B then ((a.natAbs - n : Nat) : Int)
                     else ((a.natAbs - n : Nat) : Int) - 2 * B))
    else none

/-! ## Theorems

First a toolkit of lemmas about the backing-map primitives on sorted entry
lists, then the claims. -/

theorem GapR.key_lt {a b : Entry V} (h : GapR a b) : a.1 < b.1 := by
  have := a.2.length.zero_le
  unfold GapR at h
  omega

theorem Inv.pairwise {M : Nat} {m : ContiguousMap V} (h : Inv M m) :
    m.Pairwise GapR := h.1

theorem Inv.entryOk {M : Nat} {m : ContiguousMap V} (h : Inv M m) :
    ∀ e ∈ m, EntryOk M e := h.2

theorem Inv.ksorted {M : Nat} {m : ContiguousMap V} (h : Inv M m) :
    KSorted m :=
  h.1.imp (fun hab => hab.key_lt)

theorem btFindLE_mem {m : ContiguousMap V} {key : Nat} {e : Entry V}
    (h : btFindLE m key = some e) : e ∈ m := by
  induction m with
  | nil => simp [btFindLE] at h
  | cons f rest ih =>
    simp only [btFindLE] at h
    split at h
    · cases hr : btFindLE rest key with
      | none => simp [hr] at h; simp [h]
      | some r => simp [hr] at h; subst h; exact List.mem_cons_of_mem _ (ih hr)
    · cases h

theorem btFindLE_le {m : ContiguousMap V} {key : Nat} {e : Entry V}
    (h : btFindLE m key = some e) : e.1 ≤ key := by
  induction m with
  | nil => simp [btFindLE] at h
  | cons f rest ih =>
    simp only [btFindLE] at h
    split at h
    · cases hr : btFindLE rest key with
      | none => simp [hr] at h; subst h; assumption
      | some r => simp [hr] at h; subst h; exact ih hr
    · cases h

theorem btFindLE_none {m : ContiguousMap V} {key : Nat}
    (hs : KSorted m) (h : btFindLE m key = none) :
    ∀ e ∈ m, key < e.1 := by
  induction m with
  | nil => simp
  | cons f rest ih =>
    simp only [btFindLE] at h
    split at h
    · cases hr : btFindLE rest key <;> simp [hr] at h
    · rename_i hf
      intro e he
      rcases List.mem_cons.mp he with rfl | he'
      · omega
      · exact lt_trans (by omega) ((List.pairwise_cons.mp hs).1 e he')

theorem btFindLE_max {m : ContiguousMap V} {key : Nat} {e : Entry V}
    (hs : KSorted m) (h : btFindLE m key = some e) :
    ∀ f ∈ m, f.1 ≤ key → f.1 ≤ e.1 := by
  induction m with
  | nil => simp
  | cons g rest ih =>
    simp only [btFindLE] at h
    split at h
    · intro f hf hfk
      rcases List.mem_cons.mp hf with rfl | hf'
      · cases hr : btFindLE rest key with
        | none => simp [hr] at h; subst h; omega
        | some r =>
          simp [hr] at h; subst h
          exact le_of_lt ((List.pairwise_cons.mp hs).1 _ (btFindLE_mem hr))
      · cases hr : btFindLE rest key with
        | none => exact absurd hfk (by have := btFindLE_none (List.pairwise_cons.mp hs).2 hr _ hf'; omega)
        | some r =>
          simp [hr] at h; subst h
          exact ih (List.pairwise_cons.mp hs).2 hr f hf' hfk
    · cases h

theorem btFindLE_eq_some {m : ContiguousMap V} {key : Nat} {e : Entry V}
    (hs : KSorted m) (he : e ∈ m) (hle : e.1 ≤ key)
    (hmax : ∀ f ∈ m, f.1 ≤ key → f.1 ≤ e.1) :
    btFindLE m key = some e := by
  induction m with
  | nil => cases he
  | cons g rest ih =>
    obtain ⟨hg, hrest⟩ := List.pairwise_cons.mp hs
    rcases List.mem_cons.mp he with rfl | he'
    · simp only [btFindLE, if_pos hle]
      cases hr : btFindLE rest key with
      | none => simp
      | some r =>
        have h1 := btFindLE_le hr
        have h2 := hmax r (List.mem_cons_of_mem _ (btFindLE_mem hr)) h1
        have h3 := hg r (btFindLE_mem hr)
        omega
    · have hgk : g.1 ≤ key := le_trans (le_of_lt (hg e he')) hle
      simp only [btFindLE, if_pos hgk]
      rw [ih hrest he' (fun f hf hfk => hmax f (List.mem_cons_of_mem _ hf) hfk)]
      simp

theorem btFindGE_mem {m : ContiguousMap V} {key : Nat} {e : Entry V}
    (h : btFindGE m key = some e) : e ∈ m := by
  induction m with
  | nil => simp [btFindGE] at h
  | cons f rest ih =>
    simp only [btFindGE] at h
    split at h
    · simp at h; simp [h]
    · exact List.mem_cons_of_mem _ (ih h)

theorem btFindGE_ge {m : ContiguousMap V} {key : Nat} {e : Entry V}
    (h : btFindGE m key = some e) : key ≤ e.1 := by
  induction m with
  | nil => simp [btFindGE] at h
  | cons f rest ih =>
    simp only [btFindGE] at h
    split at h
    · simp at h; subst h; assumption
    · exact ih h

theorem btFindGE_min {m : ContiguousMap V} {key : Nat} {e : Entry V}
    (hs : KSorted m) (h : btFindGE m key = some e) :
    ∀ f ∈ m, key ≤ f.1 → e.1 ≤ f.1 := by
  induction m with
  | nil => simp
  | cons g rest ih =>
    obtain ⟨hg, hrest⟩ := List.pairwise_cons.mp hs
    simp only [btFindGE] at h
    split at h
    · simp only [Option.some.injEq] at h
      subst h
      intro f hf _
      rcases List.mem_cons.mp hf with rfl | hf'
      · exact le_refl _
      · exact le_of_lt (hg f hf')
    · intro f hf hkf
      rcases List.mem_cons.mp hf with rfl | hf'
      · omega
      · exact ih hrest h f hf' hkf

theorem btGet_eq_some_iff {m : ContiguousMap V} {k : Nat} {vs : List V}
    (hs : KSorted m) : btGet m k = some vs ↔ (k, vs) ∈ m := by
  induction m with
  | nil => simp [btGet]
  | cons f rest ih =>
    obtain ⟨hf, hrest⟩ := List.pairwise_cons.mp hs
    obtain ⟨fk, fv⟩ := f
    simp only [btGet]
    split
    · rename_i hk
      subst hk
      simp only [List.mem_cons, Option.some.injEq, Prod.mk.injEq, true_and]
      constructor
      · intro h; exact Or.inl h.symm
      · rintro (h | h)
        · exact h.symm
        · have := hf _ h; simp at this
    · rename_i hk
      rw [ih hrest]
      simp only [List.mem_cons, Prod.mk.injEq]
      constructor
      · exact Or.inr
      · rintro (⟨h, -⟩ | h)
        · omega
        · exact h

theorem btGet_eq_none_iff {m : ContiguousMap V} {k : Nat}
    (hs : KSorted m) : btGet m k = none ↔ ∀ vs, (k, vs) ∉ m := by
  cases h : btGet m k with
  | none =>
    simp only [true_iff]
    intro vs hmem
    rw [← btGet_eq_some_iff hs] at hmem
    rw [h] at hmem; cases hmem
  | some vs =>
    refine iff_of_false (by simp) ?_
    simp only [not_forall, not_not]
    exact ⟨vs, (btGet_eq_some_iff hs).mp h⟩

theorem mem_btInsert_iff {m : ContiguousMap V} {k : Nat} {vs : List V}
    {f : Entry V} (hs : KSorted m) :
    f ∈ btInsert m k vs ↔ f = (k, vs) ∨ (f ∈ m ∧ f.1 ≠ k) := by
  induction m with
  | nil => simp [btInsert]
  | cons g rest ih =>
    obtain ⟨hg, hrest⟩ := List.pairwise_cons.mp hs
    simp only [btInsert]
    split
    · rename_i hlt
      simp only [List.mem_cons]
      constructor
      · rintro (rfl | rfl | h)
        · exact Or.inl rfl
        · exact Or.inr ⟨Or.inl rfl, by omega⟩
        · exact Or.inr ⟨Or.inr h, by have := hg f h; omega⟩
      · rintro (rfl | ⟨hf, _⟩)
        · exact Or.inl rfl
        · exact Or.inr hf
    · split
      · rename_i hlt heq
        subst heq
        simp only [List.mem_cons]
        constructor
        · rintro (rfl | h)
          · exact Or.inl rfl
          · exact Or.inr ⟨Or.inr h, by have := hg f h; omega⟩
        · rintro (rfl | ⟨rfl | h, hfk⟩)
          · exact Or.inl rfl
          · omega
          · exact Or.inr h
      · rename_i hlt hne
        simp only [List.mem_cons, ih hrest]
        constructor
        · rintro (rfl | h)
          · exact Or.inr ⟨Or.inl rfl, by omega⟩
          · rcases h with rfl | ⟨hf, hfk⟩
            · exact Or.inl rfl
            · exact Or.inr ⟨Or.inr hf, hfk⟩
        · rintro (rfl | ⟨hf, hfk⟩)
          · exact Or.inr (Or.inl rfl)
          · rcases hf with rfl | hf
            · exact Or.inl rfl
            · exact Or.inr (Or.inr ⟨hf, hfk⟩)

theorem btInsert_pairwise {m : ContiguousMap V} {k : Nat} {vs : List V}
    (hp : m.Pairwise GapR)
    (hlo : ∀ f ∈ m, f.1 < k → GapR f (k, vs))
    (hhi : ∀ f ∈ m, k < f.1 → GapR (k, vs) f) :
    (btInsert m k vs).Pairwise GapR := by
  induction m with
  | nil => simp [btInsert]
  | cons g rest ih =>
    obtain ⟨hg, hrest⟩ := List.pairwise_cons.mp hp
    simp only [btInsert]
    split
    · rename_i hlt
      refine List.pairwise_cons.mpr ⟨?_, hp⟩
      intro f hf
      rcases List.mem_cons.mp hf with rfl | hf'
      · exact hhi _ (List.mem_cons_self _ _) hlt
      · exact hhi _ (List.mem_cons_of_mem _ hf')
          (lt_trans hlt (hg f hf').key_lt)
    · split
      · rename_i hlt heq
        subst heq
        refine List.pairwise_cons.mpr ⟨?_, hrest⟩
        intro f hf
        exact hhi _ (List.mem_cons_of_mem _ hf) (hg f hf).key_lt
      · rename_i hlt hne
        refine List.pairwise_cons.mpr ⟨?_, ?_⟩
        · intro f hf
          rw [mem_btInsert_iff (hrest.imp GapR.key_lt)] at hf
          rcases hf with rfl | ⟨hf, _⟩
          · exact hlo _ (List.mem_cons_self _ _) (by omega)
          · exact hg f hf
        · exact ih hrest
            (fun f hf => hlo f (List.mem_cons_of_mem _ hf))
            (fun f hf => hhi f (List.mem_cons_of_mem _ hf))

theorem btRemove_sublist (m : ContiguousMap V) (k : Nat) :
    List.Sublist (btRemove m k) m := by
  induction m with
  | nil => simp [btRemove]
  | cons g rest ih =>
    simp only [btRemove]
    split
    · exact List.sublist_cons_self g rest
    · exact ih.cons₂ g

theorem mem_btRemove_iff {m : ContiguousMap V} {k : Nat} {f : Entry V}
    (hs : KSorted m) : f ∈ btRemove m k ↔ f ∈ m ∧ f.1 ≠ k := by
  induction m with
  | nil => simp [btRemove]
  | cons g rest ih =>
    obtain ⟨hg, hrest⟩ := List.pairwise_cons.mp hs
    simp only [btRemove]
    split
    · rename_i heq
      subst heq
      simp only [List.mem_cons]
      constructor
      · intro hf
        exact ⟨Or.inr hf, by have := hg f hf; omega⟩
      · rintro ⟨rfl | hf, hfk⟩
        · omega
        · exact hf
    · rename_i hne
      simp only [List.mem_cons, ih hrest]
      constructor
      · rintro (rfl | ⟨hf, hfk⟩)
        · exact ⟨Or.inl rfl, hne⟩
        · exact ⟨Or.inr hf, hfk⟩
      · rintro ⟨rfl | hf, hfk⟩
        · exact Or.inl rfl
        · exact Or.inr ⟨hf, hfk⟩

theorem mem_btClearBetween_iff {m : ContiguousMap V} {a b : Nat}
    {f : Entry V} :
    f ∈ btClearBetween m a b ↔ f ∈ m ∧ (f.1 ≤ a ∨ b ≤ f.1) := by
  simp [btClearBetween, List.mem_filter]

theorem btClearBetween_sublist (m : ContiguousMap V) (a b : Nat) :
    List.Sublist (btClearBetween m a b) m :=
  List.filter_sublist m

theorem pairwise_mem_rel {R : Entry V → Entry V → Prop} {m : List (Entry V)}
    (hp : m.Pairwise R) {a b : Entry V} (ha : a ∈ m) (hb : b ∈ m) :
    a = b ∨ R a b ∨ R b a := by
  induction m with
  | nil => cases ha
  | cons g rest ih =>
    obtain ⟨hg, hrest⟩ := List.pairwise_cons.mp hp
    rcases List.mem_cons.mp ha with rfl | ha'
    · rcases List.mem_cons.mp hb with rfl | hb'
      · exact Or.inl rfl
      · exact Or.inr (Or.inl (hg b hb'))
    · rcases List.mem_cons.mp hb with rfl | hb'
      · exact Or.inr (Or.inr (hg a ha'))
      · exact ih hrest ha' hb'

theorem key_unique {m : ContiguousMap V} (hs : KSorted m) {k : Nat}
    {vs ws : List V} (h1 : (k, vs) ∈ m) (h2 : (k, ws) ∈ m) : vs = ws := by
  rcases pairwise_mem_rel hs h1 h2 with h | h | h
  · exact congrArg Prod.snd h
  · simp at h
  · simp at h

theorem covers_unique {m : ContiguousMap V} (hp : m.Pairwise GapR)
    {a b : Entry V} {k : Nat} (ha : a ∈ m) (hb : b ∈ m)
    (hca : covers a k) (hcb : covers b k) : a = b := by
  rcases pairwise_mem_rel hp ha hb with h | h | h
  · exact h
  · exact absurd h (by unfold GapR; unfold covers at hca hcb; omega)
  · exact absurd h (by unfold GapR; unfold covers at hca hcb; omega)

/-- If a region of `m` covers `key`, the predecessor lookup inside `get`,
`insert`, `remove` and `get_slice` finds exactly that region. -/
theorem btFindLE_covering {m : ContiguousMap V} (hp : m.Pairwise GapR)
    {e : Entry V} {key : Nat} (he : e ∈ m) (hc : covers e key) :
    btFindLE m key = some e := by
  obtain ⟨hcl, hcr⟩ := hc
  refine btFindLE_eq_some (hp.imp GapR.key_lt) he hcl ?_
  intro f hf hfk
  by_contra hlt
  push_neg at hlt
  rcases pairwise_mem_rel hp he hf with rfl | h | h
  · omega
  · unfold GapR at h; omega
  · exact absurd h.key_lt (by omega)

theorem get_covering {m : ContiguousMap V} (hp : m.Pairwise GapR)
    {e : Entry V} {key : Nat} (he : e ∈ m) (hc : covers e key) :
    get m key = e.2[key - e.1]? := by
  unfold get
  rw [btFindLE_covering hp he hc]
  obtain ⟨hcl, -⟩ := hc
  simp [keyDifference, hcl]

theorem get_not_covered {m : ContiguousMap V} (hp : m.Pairwise GapR)
    {key : Nat} (h : ¬ covered m key) : get m key = none := by
  unfold get
  cases hf : btFindLE m key with
  | none => rfl
  | some e =>
    have hmem := btFindLE_mem hf
    have hle := btFindLE_le hf
    have hnc : ¬ covers e key := fun hc => h ⟨e, hmem, hc⟩
    unfold covers at hnc
    push_neg at hnc
    simp only [keyDifference, if_pos hle, Option.bind_some]
    exact List.getElem?_eq_none (by have := hnc hle; omega)

theorem get_eq_some_iff {m : ContiguousMap V} (hp : m.Pairwise GapR)
    {key : Nat} {v : V} :
    get m key = some v ↔
      ∃ e, e ∈ m ∧ covers e key ∧ e.2[key - e.1]? = some v := by
  constructor
  · intro h
    by_cases hc : covered m key
    · obtain ⟨e, he, hce⟩ := hc
      refine ⟨e, he, hce, ?_⟩
      rw [← get_covering hp he hce]
      exact h
    · rw [get_not_covered hp hc] at h; cases h
  · rintro ⟨e, he, hce, hv⟩
    rw [get_covering hp he hce]
    exact hv

theorem get_eq_none_iff {m : ContiguousMap V} (hp : m.Pairwise GapR)
    {key : Nat} : get m key = none ↔ ¬ covered m key := by
  constructor
  · intro h hc
    obtain ⟨e, he, hce⟩ := hc
    rw [get_covering hp he hce] at h
    have : key - e.1 < e.2.length := by unfold covers at hce; omega
    simp [List.getElem?_eq_getElem this] at h
  · exact get_not_covered hp

/-! Length bookkeeping for `len`. -/

theorem len_btInsert_not_mem {m : ContiguousMap V} {k : Nat} {w : List V}
    (h : ∀ vs, (k, vs) ∉ m) :
    len (btInsert m k w) = len m + w.length := by
  induction m with
  | nil => simp [btInsert, len]
  | cons g rest ih =>
    obtain ⟨gk, gv⟩ := g
    simp only [btInsert]
    split
    · simp only [len, List.map_cons, List.sum_cons]; omega
    · split
      · rename_i heq
        subst heq
        exact absurd (List.mem_cons_self _ _) (h gv)
      · have := ih (fun vs hvs => h vs (List.mem_cons_of_mem _ hvs))
        simp only [len, List.map_cons, List.sum_cons] at this ⊢
        omega

theorem len_btInsert_mem {m : ContiguousMap V} (hs : KSorted m) {k : Nat}
    {u w : List V} (hmem : (k, u) ∈ m) :
    len (btInsert m k w) + u.length = len m + w.length := by
  induction m with
  | nil => cases hmem
  | cons g rest ih =>
    obtain ⟨hg, hrest⟩ := List.pairwise_cons.mp hs
    obtain ⟨gk, gv⟩ := g
    simp only [btInsert]
    rcases List.mem_cons.mp hmem with heq | h
    · rw [Prod.mk.injEq] at heq
      obtain ⟨rfl, rfl⟩ := heq
      rw [if_neg (by omega), if_pos rfl]
      simp only [len, List.map_cons, List.sum_cons]
      omega
    · have hk := hg _ h
      simp only at hk
      rw [if_neg (by omega), if_neg (by omega)]
      have := ih hrest h
      simp only [len, List.map_cons, List.sum_cons] at this ⊢
      omega

theorem len_btRemove_mem {m : ContiguousMap V} (hs : KSorted m) {k : Nat}
    {u : List V} (hmem : (k, u) ∈ m) :
    len (btRemove m k) + u.length = len m := by
  induction m with
  | nil => cases hmem
  | cons g rest ih =>
    obtain ⟨hg, hrest⟩ := List.pairwise_cons.mp hs
    obtain ⟨gk, gv⟩ := g
    simp only [btRemove]
    rcases List.mem_cons.mp hmem with heq | h
    · rw [Prod.mk.injEq] at heq
      obtain ⟨rfl, rfl⟩ := heq
      rw [if_pos rfl]
      simp only [len, List.map_cons, List.sum_cons]
      omega
    · have hk := hg _ h
      simp only at hk
      rw [if_neg (by omega)]
      have := ih hrest h
      simp only [len, List.map_cons, List.sum_cons] at this ⊢
      omega

theorem btRemove_not_mem {m : ContiguousMap V} {k : Nat}
    (h : ∀ vs, (k, vs) ∉ m) : btRemove m k = m := by
  induction m with
  | nil => rfl
  | cons g rest ih =>
    obtain ⟨gk, gv⟩ := g
    simp only [btRemove]
    split
    · rename_i heq
      subst heq
      exact absurd (List.mem_cons_self _ _) (h gv)
    · rw [ih (fun vs hvs => h vs (List.mem_cons_of_mem _ hvs))]

/-! Invariant constructors. -/

theorem Inv.of_sublist {M : Nat} {m m' : ContiguousMap V}
    (hsub : List.Sublist m' m) (h : Inv M m) : Inv M m' :=
  ⟨h.1.sublist hsub, fun e he => h.2 e (hsub.mem he)⟩

theorem Inv.btRemove {M : Nat} {m : ContiguousMap V} (h : Inv M m) (k : Nat) :
    Inv M (ContigMap.btRemove m k) :=
  h.of_sublist (btRemove_sublist m k)

theorem Inv.btClearBetween {M : Nat} {m : ContiguousMap V} (h : Inv M m)
    (a b : Nat) : Inv M (ContigMap.btClearBetween m a b) :=
  h.of_sublist (btClearBetween_sublist m a b)

theorem Inv.btInsert {M : Nat} {m : ContiguousMap V} {k : Nat} {vs : List V}
    (h : Inv M m) (hvs : vs ≠ []) (hbound : k + vs.length ≤ M + 1)
    (hlo : ∀ f ∈ m, f.1 < k → GapR f (k, vs))
    (hhi : ∀ f ∈ m, k < f.1 → GapR (k, vs) f) :
    Inv M (ContigMap.btInsert m k vs) := by
  refine ⟨btInsert_pairwise h.1 hlo hhi, ?_⟩
  intro e he
  rw [mem_btInsert_iff h.ksorted] at he
  rcases he with rfl | ⟨he, -⟩
  · exact ⟨hvs, hbound⟩
  · exact h.2 e he

/-- Two distinct entries of an invariant-satisfying map are separated by a
gap in key order. -/
theorem gapr_of_lt {m : ContiguousMap V} (hp : m.Pairwise GapR)
    {a b : Entry V} (ha : a ∈ m) (hb : b ∈ m) (hlt : a.1 < b.1) :
    a.1 + a.2.length < b.1 := by
  rcases pairwise_mem_rel hp ha hb with rfl | h | h
  · omega
  · exact h
  · exact absurd h.key_lt (by omega)

theorem entry_nonempty {M : Nat} {m : ContiguousMap V} (h : Inv M m)
    {e : Entry V} (he : e ∈ m) : e.2 ≠ [] := (h.2 e he).1

theorem entry_bound {M : Nat} {m : ContiguousMap V} (h : Inv M m)
    {e : Entry V} (he : e ∈ m) : e.1 + e.2.length ≤ M + 1 := (h.2 e he).2

theorem btGet_btInsert_self (m : ContiguousMap V) (k : Nat) (w : List V) :
    btGet (btInsert m k w) k = some w := by
  induction m with
  | nil => simp [btInsert, btGet]
  | cons g rest ih =>
    obtain ⟨gk, gv⟩ := g
    by_cases h1 : k < gk
    · simp [btInsert, btGet, h1]
    · by_cases h2 : k = gk
      · subst h2
        simp [btInsert, btGet, h1]
      · have h3 : ¬(gk = k) := fun h => h2 h.symm
        simp [btInsert, btGet, h1, h2, h3, ih]

theorem btGet_btInsert_ne (m : ContiguousMap V) {k q : Nat} (w : List V)
    (hne : q ≠ k) : btGet (btInsert m k w) q = btGet m q := by
  have hkq : ¬(k = q) := fun h => hne h.symm
  induction m with
  | nil => simp [btInsert, btGet, hkq]
  | cons g rest ih =>
    obtain ⟨gk, gv⟩ := g
    by_cases h1 : k < gk
    · simp [btInsert, btGet, h1, hkq]
    · by_cases h2 : k = gk
      · subst h2
        simp [btInsert, btGet, h1, hkq]
      · by_cases h4 : gk = q
        · subst h4
          simp [btInsert, btGet, h1, h2]
        · simp [btInsert, btGet, h1, h2, h4, ih]

theorem btGet_btRemove_ne (m : ContiguousMap V) {k q : Nat}
    (hne : q ≠ k) : btGet (btRemove m k) q = btGet m q := by
  induction m with
  | nil => rfl
  | cons g rest ih =>
    obtain ⟨gk, gv⟩ := g
    by_cases h1 : gk = k
    · subst h1
      simp [btRemove, btGet, show ¬(gk = q) from fun h => hne h.symm]
    · by_cases h4 : gk = q
      · subst h4
        simp [btRemove, btGet, h1]
      · simp [btRemove, btGet, h1, h4, ih]

theorem btInsert_cons_of_lt {m : ContiguousMap V} {k : Nat} {w : List V}
    (h : ∀ f ∈ m, k < f.1) : btInsert m k w = (k, w) :: m := by
  cases m with
  | nil => rfl
  | cons g rest => simp [btInsert, h g (List.mem_cons_self g rest)]

theorem btRemove_btInsert_comm {m : ContiguousMap V} (hs : KSorted m)
    {k q : Nat} (w : List V) (hne : q ≠ k) :
    btRemove (btInsert m k w) q = btInsert (btRemove m q) k w := by
  have hkq : ¬(k = q) := fun h => hne h.symm
  induction m with
  | nil => simp [btInsert, btRemove, hkq]
  | cons g rest ih =>
    obtain ⟨hg, hrest⟩ := List.pairwise_cons.mp hs
    obtain ⟨gk, gv⟩ := g
    by_cases h1 : k < gk
    · by_cases h2 : gk = q
      · subst h2
        simp only [btInsert, if_pos h1]
        simp [btRemove, hkq]
        rw [btInsert_cons_of_lt (fun f hf => lt_trans h1 (hg f hf))]
      · simp [btInsert, btRemove, h1, h2, hkq]
    · by_cases h2 : k = gk
      · subst h2
        simp [btInsert, btRemove, h1, hkq, show ¬(k = q) from hkq]
      · by_cases h4 : gk = q
        · subst h4
          simp [btInsert, btRemove, h1, h2]
        · simp [btInsert, btRemove, h1, h2, h4, ih hrest]

theorem btInsert_btInsert_same (m : ContiguousMap V) (k : Nat)
    (w w' : List V) :
    btInsert (btInsert m k w) k w' = btInsert m k w' := by
  induction m with
  | nil => simp [btInsert]
  | cons g rest ih =>
    obtain ⟨gk, gv⟩ := g
    by_cases h1 : k < gk
    · simp [btInsert, h1]
    · by_cases h2 : k = gk
      · subst h2
        simp [btInsert, h1]
      · simp [btInsert, h1, h2, ih]

theorem btGet_none_no_key {m : ContiguousMap V} {k : Nat}
    (hs : KSorted m) (hget : btGet m k = none) : ∀ f ∈ m, f.1 ≠ k := by
  intro f hf heq
  rw [btGet_eq_none_iff hs] at hget
  exact hget f.2 (heq ▸ Prod.mk.eta (p := f) ▸ hf)

theorem keyAddOne_some {M key k1 : Nat} (h : keyAddOne M key = some k1) :
    k1 = key + 1 ∧ key < M := by
  unfold keyAddOne at h
  split at h
  · simp only [Option.some.injEq] at h; omega
  · cases h

theorem keyAddOne_none {M key : Nat} (h : keyAddOne M key = none) :
    M ≤ key := by
  unfold keyAddOne at h
  split at h
  · cases h
  · omega

theorem keyAddUsize_some {M k n q : Nat} (h : keyAddUsize M k n = some q) :
    q = k + n ∧ k + n ≤ M := by
  unfold keyAddUsize at h
  split at h
  · simp only [Option.some.injEq] at h; omega
  · cases h

theorem keyAddUsize_none {M k n : Nat} (h : keyAddUsize M k n = none) :
    M < k + n := by
  unfold keyAddUsize at h
  split at h
  · cases h
  · omega

/-! Shapes of `insert`: under each guard combination the result is an
explicit map expression. -/

theorem insertFresh_shape_merge {M : Nat} {m : ContiguousMap V} {key k1 : Nat}
    {v : V} {vs1 : List V} (hadd : keyAddOne M key = some k1)
    (hget : btGet m k1 = some vs1) :
    insertFresh M m key v = (btInsert (btRemove m k1) key (v :: vs1), none) := by
  unfold insertFresh
  rw [hadd]
  simp only [hget]

theorem insertFresh_shape_isolated1 {M : Nat} {m : ContiguousMap V}
    {key k1 : Nat} {v : V} (hadd : keyAddOne M key = some k1)
    (hget : btGet m k1 = none) :
    insertFresh M m key v = (btInsert m key [v], none) := by
  unfold insertFresh
  rw [hadd]
  simp only [hget]

theorem insertFresh_shape_isolated2 {M : Nat} {m : ContiguousMap V}
    {key : Nat} {v : V} (hadd : keyAddOne M key = none) :
    insertFresh M m key v = (btInsert m key [v], none) := by
  unfold insertFresh
  rw [hadd]

theorem insert_shape_nofind {M : Nat} {m : ContiguousMap V} {key : Nat}
    {v : V} (hf : btFindLE m key = none) :
    insert M m key v = insertFresh M m key v := by
  unfold insert
  rw [hf]

theorem insert_shape_far {M : Nat} {m : ContiguousMap V} {key k0 : Nat}
    {vs : List V} {v : V} (hf : btFindLE m key = some (k0, vs))
    (hfar : vs.length < key - k0) :
    insert M m key v = insertFresh M m key v := by
  have hk0 : k0 ≤ key := btFindLE_le hf
  unfold insert
  rw [hf]
  simp only [keyDifference, if_pos hk0]
  rw [dif_neg (by omega), if_neg (by omega)]

theorem insert_shape_overwrite {M : Nat} {m : ContiguousMap V} {key k0 : Nat}
    {vs : List V} {v : V} (hf : btFindLE m key = some (k0, vs))
    (hidx : key - k0 < vs.length) :
    insert M m key v =
      (btInsert m k0 (vs.set (key - k0) v), some (vs.get ⟨key - k0, hidx⟩)) := by
  have hk0 : k0 ≤ key := btFindLE_le hf
  unfold insert
  rw [hf]
  simp only [keyDifference, if_pos hk0]
  rw [dif_pos hidx]

theorem insert_shape_append_merge {M : Nat} {m : ContiguousMap V}
    (hs : KSorted m) {key k0 k1 : Nat} {vs vs1 : List V} {v : V}
    (hf : btFindLE m key = some (k0, vs)) (hidx : key - k0 = vs.length)
    (hadd : keyAddOne M key = some k1) (hget : btGet m k1 = some vs1) :
    insert M m key v =
      (btInsert (btRemove m k1) k0 (vs ++ [v] ++ vs1), none) := by
  have hk0 : k0 ≤ key := btFindLE_le hf
  have hk1 : key < k1 := by have := keyAddOne_some hadd; omega
  have hne : k1 ≠ k0 := by omega
  unfold insert
  rw [hf]
  simp only [keyDifference, if_pos hk0]
  rw [dif_neg (by omega), if_pos hidx]
  simp only [hadd]
  rw [btGet_btInsert_ne m (vs ++ [v]) hne]
  simp only [hget]
  rw [btRemove_btInsert_comm hs (vs ++ [v]) hne, btInsert_btInsert_same]

theorem insert_shape_append_alone1 {M : Nat} {m : ContiguousMap V}
    {key k0 k1 : Nat} {vs : List V} {v : V}
    (hf : btFindLE m key = some (k0, vs)) (hidx : key - k0 = vs.length)
    (hadd : keyAddOne M key = some k1) (hget : btGet m k1 = none) :
    insert M m key v = (btInsert m k0 (vs ++ [v]), none) := by
  have hk0 : k0 ≤ key := btFindLE_le hf
  have hk1 : key < k1 := by have := keyAddOne_some hadd; omega
  have hne : k1 ≠ k0 := by omega
  unfold insert
  rw [hf]
  simp only [keyDifference, if_pos hk0]
  rw [dif_neg (by omega), if_pos hidx]
  simp only [hadd]
  rw [btGet_btInsert_ne m (vs ++ [v]) hne]
  simp only [hget]

theorem insert_shape_append_alone2 {M : Nat} {m : ContiguousMap V}
    {key k0 : Nat} {vs : List V} {v : V}
    (hf : btFindLE m key = some (k0, vs)) (hidx : key - k0 = vs.length)
    (hadd : keyAddOne M key = none) :
    insert M m key v = (btInsert m k0 (vs ++ [v]), none) := by
  have hk0 : k0 ≤ key := btFindLE_le hf
  unfold insert
  rw [hf]
  simp only [keyDifference, if_pos hk0]
  rw [dif_neg (by omega), if_pos hidx]
  simp only [hadd]

theorem succUnwrap_eq (M k : Nat) : succUnwrap M k = k + 1 := by
  unfold succUnwrap keyAddOne
  split <;> rfl

theorem addUnwrap_eq (M k n : Nat) : addUnwrap M k n = k + n := by
  unfold addUnwrap keyAddUsize
  split <;> rfl

/-! Shapes of `remove`. -/

theorem remove_shape_nofind {M : Nat} {m : ContiguousMap V} {key : Nat}
    (hf : btFindLE m key = none) : remove M m key = (m, none) := by
  unfold remove
  rw [hf]

theorem remove_shape_out {M : Nat} {m : ContiguousMap V} {key k0 : Nat}
    {vs : List V} (hf : btFindLE m key = some (k0, vs))
    (hout : vs.length - 1 < key - k0) : remove M m key = (m, none) := by
  have hk0 : k0 ≤ key := btFindLE_le hf
  unfold remove
  rw [hf]
  simp only [keyDifference, if_pos hk0]
  rw [if_pos hout]

theorem remove_shape_last {M : Nat} {m : ContiguousMap V} {key k0 : Nat}
    {vs : List V} (hf : btFindLE m key = some (k0, vs))
    (hidx : key - k0 = vs.length - 1) :
    remove M m key =
      ((if vs.dropLast.isEmpty then btRemove m key
        else btInsert m k0 vs.dropLast), vs.getLast?) := by
  have hk0 : k0 ≤ key := btFindLE_le hf
  unfold remove
  rw [hf]
  simp only [keyDifference, if_pos hk0]
  rw [if_neg (by omega), if_pos hidx]

theorem remove_shape_front {M : Nat} {m : ContiguousMap V} {k0 : Nat}
    {vs : List V} (hf : btFindLE m k0 = some (k0, vs))
    (hlen : 2 ≤ vs.length) :
    remove M m k0 =
      (btInsert (btRemove m k0) (succUnwrap M k0) vs.tail, vs.head?) := by
  unfold remove
  rw [hf]
  simp only [keyDifference, if_pos (le_refl k0), Nat.sub_self]
  rw [if_neg (by omega), if_neg (by omega)]
  simp

theorem remove_shape_interior {M : Nat} {m : ContiguousMap V} {key k0 : Nat}
    {vs : List V} (hf : btFindLE m key = some (k0, vs))
    (hpos : 0 < key - k0) (hin : key - k0 < vs.length - 1) :
    remove M m key =
      (btInsert (btInsert m k0 (vs.take (key - k0))) (succUnwrap M key)
         (vs.drop (key - k0 + 1)), vs[key - k0]?) := by
  have hk0 : k0 ≤ key := btFindLE_le hf
  unfold remove
  rw [hf]
  simp only [keyDifference, if_pos hk0]
  rw [if_neg (by omega), if_neg (by omega), if_neg (by omega)]

/-! Invariant preservation, operation by operation. -/

theorem insertFresh_inv {M : Nat} {m : ContiguousMap V} {key : Nat} {v : V}
    (h : Inv M m) (hkey : key ≤ M)
    (hbelow : ∀ f ∈ m, f.1 ≤ key → f.1 + f.2.length < key) :
    Inv M (insertFresh M m key v).1 := by
  cases hadd : keyAddOne M key with
  | none =>
    rw [insertFresh_shape_isolated2 hadd]
    have hM : M ≤ key := keyAddOne_none hadd
    refine h.btInsert (by simp) (by simp; omega) ?_ ?_
    · intro f hf hlt
      exact hbelow f hf (le_of_lt hlt)
    · intro f hf hlt
      have h1 := entry_bound h hf
      have h2 := List.length_pos.mpr (entry_nonempty h hf)
      unfold GapR
      omega
  | some k1 =>
    obtain ⟨rfl, hkM⟩ := keyAddOne_some hadd
    cases hget : btGet m (key + 1) with
    | none =>
      rw [insertFresh_shape_isolated1 hadd hget]
      have hno := btGet_none_no_key h.ksorted hget
      refine h.btInsert (by simp) (by simp; omega) ?_ ?_
      · intro f hf hlt
        exact hbelow f hf (le_of_lt hlt)
      · intro f hf hlt
        have := hno f hf
        unfold GapR
        simp only [List.length_cons, List.length_nil]
        omega
    | some vs1 =>
      rw [insertFresh_shape_merge hadd hget]
      have hmem1 : (key + 1, vs1) ∈ m := (btGet_eq_some_iff h.ksorted).mp hget
      have hb1 := entry_bound h hmem1
      simp only at hb1
      refine (h.btRemove (key + 1)).btInsert (by simp) ?_ ?_ ?_
      · simp only [List.length_cons]
        omega
      · intro f hf hlt
        rw [mem_btRemove_iff h.ksorted] at hf
        exact hbelow f hf.1 (le_of_lt hlt)
      · intro f hf hlt
        rw [mem_btRemove_iff h.ksorted] at hf
        obtain ⟨hfm, hfne⟩ := hf
        have hgt : key + 1 < f.1 := by omega
        have := gapr_of_lt h.1 hmem1 hfm (by simpa using hgt)
        unfold GapR at this ⊢
        simp only [List.length_cons] at this ⊢
        omega

theorem insert_inv {M : Nat} {m : ContiguousMap V} {key : Nat} {v : V}
    (h : Inv M m) (hkey : key ≤ M) : Inv M (insert M m key v).1 := by
  cases hf : btFindLE m key with
  | none =>
    rw [insert_shape_nofind hf]
    refine insertFresh_inv h hkey ?_
    intro f hfm hle
    exact absurd (btFindLE_none h.ksorted hf f hfm) (by omega)
  | some e =>
    obtain ⟨k0, vs⟩ := e
    have hmem := btFindLE_mem hf
    have hk0 : k0 ≤ key := btFindLE_le hf
    have hmax := btFindLE_max h.ksorted hf
    have hok := h.2 _ hmem
    obtain ⟨hvs, hbd⟩ := hok
    simp only at hbd
    rcases Nat.lt_trichotomy (key - k0) vs.length with hidx | hidx | hidx
    · -- overwrite in place
      rw [insert_shape_overwrite hf hidx]
      refine h.btInsert ?_ ?_ ?_ ?_
      · intro hcon
        have hlen := congrArg List.length hcon
        simp only [List.length_set, List.length_nil] at hlen
        omega
      · simpa using hbd
      · intro f hfm hlt
        have := gapr_of_lt h.1 hfm hmem (by simpa using hlt)
        unfold GapR
        simp only [List.length_set]
        simpa using this
      · intro f hfm hlt
        have := gapr_of_lt h.1 hmem hfm (by simpa using hlt)
        unfold GapR at this ⊢
        simp only [List.length_set] at this ⊢
        omega
    · -- append at the end of the region (key = k0 + vs.length)
      have hkeyeq : key = k0 + vs.length := by omega
      -- general facts for the appended entry
      have hlo : ∀ f ∈ m, f.1 < k0 → f.1 + f.2.length < k0 :=
        fun f hfm hlt => gapr_of_lt h.1 hfm hmem (by simpa using hlt)
      have hhiK : ∀ f ∈ m, k0 < f.1 → k0 + vs.length < f.1 := by
        intro f hfm hlt
        have := gapr_of_lt h.1 hmem hfm (by simpa using hlt)
        simpa using this
      cases hadd : keyAddOne M key with
      | none =>
        rw [insert_shape_append_alone2 hf hidx hadd]
        have hM : M ≤ key := keyAddOne_none hadd
        refine h.btInsert (by simp) ?_ ?_ ?_
        · simp only [List.length_append, List.length_cons, List.length_nil]
          omega
        · intro f hfm hlt
          unfold GapR
          simp only [List.length_append, List.length_cons, List.length_nil]
          have h2 := hlo f hfm hlt
          omega
        · intro f hfm hlt
          have h1 := entry_bound h hfm
          have h2 := List.length_pos.mpr (entry_nonempty h hfm)
          have h3 := hhiK f hfm hlt
          unfold GapR
          simp only [List.length_append, List.length_cons, List.length_nil]
          omega
      | some k1 =>
        obtain ⟨rfl, hkM⟩ := keyAddOne_some hadd
        cases hget : btGet m (key + 1) with
        | none =>
          rw [insert_shape_append_alone1 hf hidx hadd hget]
          have hno := btGet_none_no_key h.ksorted hget
          refine h.btInsert (by simp) ?_ ?_ ?_
          · simp only [List.length_append, List.length_cons, List.length_nil]
            omega
          · intro f hfm hlt
            unfold GapR
            simp only [List.length_append, List.length_cons, List.length_nil]
            have h2 := hlo f hfm hlt
            omega
          · intro f hfm hlt
            have h3 := hhiK f hfm hlt
            have h4 := hno f hfm
            unfold GapR
            simp only [List.length_append, List.length_cons, List.length_nil]
            omega
        | some vs1 =>
          rw [insert_shape_append_merge h.ksorted hf hidx hadd hget]
          have hmem1 : (key + 1, vs1) ∈ m := (btGet_eq_some_iff h.ksorted).mp hget
          have hb1 := entry_bound h hmem1
          simp only at hb1
          refine (h.btRemove (key + 1)).btInsert (by simp) ?_ ?_ ?_
          · simp only [List.length_append, List.length_cons, List.length_nil]
            omega
          · intro f hfm hlt
            rw [mem_btRemove_iff h.ksorted] at hfm
            unfold GapR
            simp only [List.length_append, List.length_cons, List.length_nil]
            have h2 := hlo f hfm.1 hlt
            omega
          · intro f hfm hlt
            rw [mem_btRemove_iff h.ksorted] at hfm
            obtain ⟨hfm, hfne⟩ := hfm
            have h3 := hhiK f hfm hlt
            have h4 : key + 1 < f.1 := by omega
            have h5 := gapr_of_lt h.1 hmem1 hfm (by simpa using h4)
            unfold GapR at h5 ⊢
            simp only [List.length_append, List.length_cons, List.length_nil] at h5 ⊢
            omega
    · -- the found region ends strictly before key: fresh entry
      rw [insert_shape_far hf hidx]
      refine insertFresh_inv h hkey ?_
      intro f hfm hle
      by_cases hcase : f.1 < k0
      · have := gapr_of_lt h.1 hfm hmem (by simpa using hcase)
        simp only at this
        omega
      · have hle2 : f.1 ≤ k0 := hmax f hfm hle
        have : f = (k0, vs) := by
          rcases pairwise_mem_rel h.1 hfm hmem with heq | hg | hg
          · exact heq
          · exact absurd hg.key_lt (by omega)
          · exact absurd hg.key_lt (by omega)
        rw [this]
        simp only
        omega

theorem remove_inv {M : Nat} {m : ContiguousMap V} {key : Nat}
    (h : Inv M m) : Inv M (remove M m key).1 := by
  cases hf : btFindLE m key with
  | none => rw [remove_shape_nofind hf]; exact h
  | some e =>
    obtain ⟨k0, vs⟩ := e
    have hmem := btFindLE_mem hf
    have hk0 : k0 ≤ key := btFindLE_le hf
    obtain ⟨hvs, hbd⟩ := h.2 _ hmem
    simp only at hbd
    have hlen : 1 ≤ vs.length := List.length_pos.mpr hvs
    have hlo : ∀ f ∈ m, f.1 < k0 → f.1 + f.2.length < k0 :=
      fun f hfm hlt => gapr_of_lt h.1 hfm hmem (by simpa using hlt)
    have hhiK : ∀ f ∈ m, k0 < f.1 → k0 + vs.length < f.1 := by
      intro f hfm hlt
      have := gapr_of_lt h.1 hmem hfm (by simpa using hlt)
      simpa using this
    by_cases hout : vs.length - 1 < key - k0
    · rw [remove_shape_out hf hout]; exact h
    · by_cases hlast : key - k0 = vs.length - 1
      · rw [remove_shape_last hf hlast]
        by_cases hone : vs.dropLast.isEmpty
        · rw [if_pos hone]
          exact h.btRemove key
        · rw [if_neg hone]
          have hdl : vs.dropLast.length = vs.length - 1 := vs.length_dropLast
          have hge2 : 2 ≤ vs.length := by
            rcases Nat.lt_or_ge vs.length 2 with h2 | h2
            · exfalso
              apply hone
              rw [List.isEmpty_iff, ← List.length_eq_zero, hdl]
              omega
            · exact h2
          refine h.btInsert ?_ (by rw [hdl]; omega) ?_ ?_
          · exact List.length_pos.mp (by rw [hdl]; omega)
          · intro f hfm hlt
            have := hlo f hfm hlt
            unfold GapR
            dsimp only
            omega
          · intro f hfm hlt
            have := hhiK f hfm hlt
            unfold GapR
            dsimp only
            rw [hdl]
            omega
      · -- key - k0 < vs.length - 1
        have hin : key - k0 < vs.length - 1 := by omega
        by_cases hzero : key - k0 = 0
        · -- front removal: key = k0 and the region has at least 2 values
          have hkey : key = k0 := by omega
          subst hkey
          have hge2 : 2 ≤ vs.length := by omega
          rw [remove_shape_front hf hge2, succUnwrap_eq]
          refine (h.btRemove key).btInsert ?_ ?_ ?_ ?_
          · exact List.length_pos.mp (by rw [List.length_tail]; omega)
          · rw [List.length_tail]
            omega
          · intro f hfm hlt
            rw [mem_btRemove_iff h.ksorted] at hfm
            obtain ⟨hfm, hfne⟩ := hfm
            have := hlo f hfm (by omega)
            unfold GapR
            dsimp only
            omega
          · intro f hfm hlt
            rw [mem_btRemove_iff h.ksorted] at hfm
            obtain ⟨hfm, hfne⟩ := hfm
            have := hhiK f hfm (by omega)
            unfold GapR
            dsimp only
            rw [List.length_tail]
            omega
        · -- interior removal: split the region in two
          have hpos : 0 < key - k0 := by omega
          rw [remove_shape_interior hf hpos hin, succUnwrap_eq]
          have htk : (vs.take (key - k0)).length = key - k0 := by
            rw [List.length_take]
            omega
          have hm1 : Inv M (btInsert m k0 (vs.take (key - k0))) := by
            refine h.btInsert ?_ (by rw [htk]; omega) ?_ ?_
            · exact List.length_pos.mp (by rw [htk]; omega)
            · intro f hfm hlt
              have := hlo f hfm hlt
              unfold GapR
              dsimp only
              omega
            · intro f hfm hlt
              have := hhiK f hfm hlt
              unfold GapR
              dsimp only
              rw [htk]
              omega
          have hdk : (vs.drop (key - k0 + 1)).length = vs.length - (key - k0 + 1) :=
            List.length_drop _ _
          refine hm1.btInsert ?_ ?_ ?_ ?_
          · exact List.length_pos.mp (by rw [hdk]; omega)
          · rw [hdk]
            omega
          · intro f hfm hlt
            rw [mem_btInsert_iff h.ksorted] at hfm
            rcases hfm with rfl | ⟨hfm, hfne⟩
            · unfold GapR
              dsimp only
              rw [htk]
              omega
            · unfold GapR
              dsimp only
              by_cases hcase : f.1 < k0
              · have := hlo f hfm hcase
                omega
              · have hgt : k0 < f.1 := by omega
                have := hhiK f hfm hgt
                omega
          · intro f hfm hlt
            rw [mem_btInsert_iff h.ksorted] at hfm
            rcases hfm with rfl | ⟨hfm, hfne⟩
            · simp only at hlt
              omega
            · have hgt : k0 < f.1 := by omega
              have := hhiK f hfm hgt
              unfold GapR
              dsimp only
              rw [hdk]
              omega

/-! Every index the `find*` family resolves names an existing entry and an
in-bounds offset. -/

theorem find_valid {m : ContiguousMap V} {key : Nat} {i : Nat × Nat}
    (h : find m key = some i) : ValidIdx m i := by
  unfold find at h
  cases hf : btFindLE m key with
  | none => rw [hf] at h; cases h
  | some e =>
    obtain ⟨k0, vs⟩ := e
    have hle : k0 ≤ key := btFindLE_le hf
    have hmem := btFindLE_mem hf
    rw [hf] at h
    simp only [keyDifference, if_pos hle] at h
    split at h
    · cases h
    · rename_i hoff
      simp only [Option.some.injEq] at h
      subst h
      exact ⟨vs, hmem, by omega⟩

theorem find_at_most_valid {M : Nat} {m : ContiguousMap V} (hinv : Inv M m)
    {key : Nat} {i : Nat × Nat} (h : find_at_most m key = some i) :
    ValidIdx m i := by
  unfold find_at_most at h
  cases hf : btFindLE m key with
  | none => rw [hf] at h; cases h
  | some e =>
    obtain ⟨k0, vs⟩ := e
    have hle : k0 ≤ key := btFindLE_le hf
    have hmem := btFindLE_mem hf
    have hlen := List.length_pos.mpr (entry_nonempty hinv hmem)
    rw [hf] at h
    simp only [keyDifference, if_pos hle, Option.map_some', Option.some.injEq] at h
    subst h
    exact ⟨vs, hmem, by simp only at hlen ⊢; omega⟩

theorem find_less_valid {M : Nat} {m : ContiguousMap V} (hinv : Inv M m)
    {key : Nat} {i : Nat × Nat} (h : find_less m key = some i) :
    ValidIdx m i := by
  unfold find_less at h
  cases hs : keySubOne key with
  | none => rw [hs] at h; cases h
  | some q =>
    rw [hs] at h
    exact find_at_most_valid hinv h

theorem find_at_least_valid {M : Nat} {m : ContiguousMap V} (hinv : Inv M m)
    {key : Nat} {i : Nat × Nat} (h : find_at_least m key = some i) :
    ValidIdx m i := by
  unfold find_at_least at h
  cases hfind : find m key with
  | some j =>
    rw [hfind] at h
    simp only [Option.some.injEq] at h
    subst h
    exact find_valid hfind
  | none =>
    rw [hfind] at h
    cases hge : btFindGE m key with
    | none => rw [hge] at h; cases h
    | some e =>
      obtain ⟨k0, vs⟩ := e
      have hmem := btFindGE_mem hge
      have hlen := List.length_pos.mpr (entry_nonempty hinv hmem)
      rw [hge] at h
      simp only [Option.map_some', Option.some.injEq] at h
      subst h
      exact ⟨vs, hmem, by simp only at hlen ⊢; omega⟩

theorem find_more_valid {M W : Nat} {m : ContiguousMap V} (hinv : Inv M m)
    {key : Nat} {i : Nat × Nat} (h : find_more W m key = some i) :
    ValidIdx m i := by
  unfold find_more at h
  cases hs : keyAddOne W key with
  | none => rw [hs] at h; cases h
  | some q =>
    rw [hs] at h
    exact find_at_least_valid hinv h

theorem first_valid {M : Nat} {m : ContiguousMap V} (hinv : Inv M m)
    {i : Nat × Nat} (h : first m = some i) : ValidIdx m i := by
  unfold first at h
  cases hh : m.head? with
  | none => rw [hh] at h; cases h
  | some e =>
    obtain ⟨k0, vs⟩ := e
    have hmem : (k0, vs) ∈ m := List.mem_of_mem_head? hh
    have hlen := List.length_pos.mpr (entry_nonempty hinv hmem)
    rw [hh] at h
    simp only [Option.map_some', Option.some.injEq] at h
    subst h
    exact ⟨vs, hmem, by simp only at hlen ⊢; omega⟩

theorem last_valid {M : Nat} {m : ContiguousMap V} (hinv : Inv M m)
    {i : Nat × Nat} (h : last m = some i) : ValidIdx m i := by
  unfold last at h
  cases hh : m.getLast? with
  | none => rw [hh] at h; cases h
  | some e =>
    obtain ⟨k0, vs⟩ := e
    have hmem : (k0, vs) ∈ m := List.mem_of_mem_getLast? hh
    have hlen := List.length_pos.mpr (entry_nonempty hinv hmem)
    rw [hh] at h
    simp only [Option.map_some', Option.some.injEq] at h
    subst h
    exact ⟨vs, hmem, by simp only at hlen ⊢; omega⟩

theorem find_range_valid {M : Nat} {m : ContiguousMap V} (hinv : Inv M m)
    {r : RB} {s e : Nat × Nat} (h : find_range M m r = some (s, e)) :
    ValidIdx m s ∧ ValidIdx m e ∧ idxLE s e := by
  unfold find_range at h
  cases hs : (match r.lo with
              | .excl q => find_more M m q
              | .incl q => find_at_least m q
              | .unb => first m) with
  | none => rw [hs] at h; cases h
  | some s0 =>
    rw [hs] at h
    cases he : (match r.hi with
                | .excl q => find_less m q
                | .incl q => find_at_most m q
                | .unb => last m) with
    | none => rw [he] at h; cases h
    | some e0 =>
      rw [he] at h
      dsimp only at h
      by_cases hle : idxLE s0 e0
      · rw [if_pos hle] at h
        simp only [Option.some.injEq, Prod.mk.injEq] at h
        obtain ⟨rfl, rfl⟩ := h
        refine ⟨?_, ?_, hle⟩
        · rcases hr : r.lo with q | q | _ <;> rw [hr] at hs
          · exact find_at_least_valid hinv hs
          · exact find_more_valid hinv hs
          · exact first_valid hinv hs
        · rcases hr : r.hi with q | q | _ <;> rw [hr] at he
          · exact find_at_most_valid hinv he
          · exact find_less_valid hinv he
          · exact last_valid hinv he
      · rw [if_neg hle] at h
        cases h

theorem clear_range_inv {M : Nat} {m : ContiguousMap V} {r : RB}
    (h : Inv M m) : Inv M (clear_range M m r) := by
  unfold clear_range
  cases hfr : find_range M m r with
  | none => exact h
  | some se =>
    obtain ⟨s, e⟩ := se
    obtain ⟨⟨vsS, hmemS, hoffS⟩, ⟨vsE, hmemE, hoffE⟩, hse⟩ := find_range_valid h hfr
    have hgetS : btGet m s.1 = some vsS := (btGet_eq_some_iff h.ksorted).mpr hmemS
    obtain ⟨hneS, hbdS⟩ := h.2 _ hmemS
    obtain ⟨hneE, hbdE⟩ := h.2 _ hmemE
    simp only at hbdS hbdE
    have hlenS := List.length_pos.mpr hneS
    have hlenE := List.length_pos.mpr hneE
    simp only at hlenS hlenE
    have hloS : ∀ f ∈ m, f.1 < s.1 → f.1 + f.2.length < s.1 :=
      fun f hfm hlt => gapr_of_lt h.1 hfm hmemS (by simpa using hlt)
    have hhiS : ∀ f ∈ m, s.1 < f.1 → s.1 + vsS.length < f.1 := by
      intro f hfm hlt
      have := gapr_of_lt h.1 hmemS hfm (by simpa using hlt)
      simpa using this
    have hhiE : ∀ f ∈ m, e.1 < f.1 → e.1 + vsE.length < f.1 := by
      intro f hfm hlt
      have := gapr_of_lt h.1 hmemE hfm (by simpa using hlt)
      simpa using this
    dsimp only
    by_cases heq : s.1 = e.1
    · -- removal inside a single region
      rw [if_pos heq]
      rw [hgetS]
      simp only [Option.getD_some]
      have hvsE : vsE = vsS := key_unique h.ksorted (heq ▸ hmemE) hmemS
      have hoffE' : e.2 < vsS.length := by rw [← hvsE]; exact hoffE
      have hs2e2 : s.2 ≤ e.2 := by
        rcases hse with hlt | ⟨-, hle⟩
        · omega
        · exact hle
      rw [succUnwrap_eq, addUnwrap_eq, ← heq]
      by_cases hs0 : s.2 = 0
      · rw [if_pos hs0]
        by_cases hlast : e.2 = vsS.length - 1
        · rw [if_pos hlast]
          exact h.btRemove s.1
        · rw [if_neg hlast]
          have hin : e.2 + 1 < vsS.length := by omega
          have hdk : (vsS.drop (e.2 + 1)).length = vsS.length - (e.2 + 1) :=
            List.length_drop _ _
          refine (h.btRemove s.1).btInsert ?_ (by rw [hdk]; omega) ?_ ?_
          · exact List.length_pos.mp (by rw [hdk]; omega)
          · intro f hfm hlt
            rw [mem_btRemove_iff h.ksorted] at hfm
            obtain ⟨hfm, hfne⟩ := hfm
            unfold GapR
            dsimp only
            by_cases hcase : f.1 < s.1
            · have := hloS f hfm hcase
              omega
            · have := hhiS f hfm (by omega)
              omega
          · intro f hfm hlt
            rw [mem_btRemove_iff h.ksorted] at hfm
            obtain ⟨hfm, hfne⟩ := hfm
            have := hhiS f hfm (by omega)
            unfold GapR
            dsimp only
            rw [hdk]
            omega
      · rw [if_neg hs0]
        have htk : (vsS.take s.2).length = s.2 := by
          rw [List.length_take]
          omega
        have hm1 : Inv M (btInsert m s.1 (vsS.take s.2)) := by
          refine h.btInsert ?_ (by rw [htk]; omega) ?_ ?_
          · exact List.length_pos.mp (by rw [htk]; omega)
          · intro f hfm hlt
            have := hloS f hfm hlt
            unfold GapR
            dsimp only
            omega
          · intro f hfm hlt
            have := hhiS f hfm hlt
            unfold GapR
            dsimp only
            rw [htk]
            omega
        by_cases hlast : e.2 = vsS.length - 1
        · rw [if_pos hlast]
          refine h.btInsert ?_ (by rw [htk]; omega) ?_ ?_
          · exact List.length_pos.mp (by rw [htk]; omega)
          · intro f hfm hlt
            have := hloS f hfm hlt
            unfold GapR
            dsimp only
            omega
          · intro f hfm hlt
            have := hhiS f hfm hlt
            unfold GapR
            dsimp only
            rw [htk]
            omega
        · rw [if_neg hlast]
          have hin : e.2 + 1 < vsS.length := by omega
          have hdk : (vsS.drop (e.2 + 1)).length = vsS.length - (e.2 + 1) :=
            List.length_drop _ _
          refine hm1.btInsert ?_ (by rw [hdk]; omega) ?_ ?_
          · exact List.length_pos.mp (by rw [hdk]; omega)
          · intro f hfm hlt
            rw [mem_btInsert_iff h.ksorted] at hfm
            unfold GapR
            dsimp only
            rcases hfm with rfl | ⟨hfm, hfne⟩
            · dsimp only
              rw [htk]
              omega
            · by_cases hcase : f.1 < s.1
              · have := hloS f hfm hcase
                omega
              · have := hhiS f hfm (by omega)
                omega
          · intro f hfm hlt
            rw [mem_btInsert_iff h.ksorted] at hfm
            unfold GapR
            dsimp only
            rcases hfm with rfl | ⟨hfm, hfne⟩
            · dsimp only at hlt
              omega
            · have := hhiS f hfm (by omega)
              rw [hdk]
              omega
    · -- removal spans multiple regions
      rw [if_neg heq]
      rw [hgetS]
      simp only [Option.getD_some]
      have hslt : s.1 < e.1 := by
        rcases hse with hlt | ⟨heq2, -⟩
        · exact hlt
        · exact absurd heq2 heq
      have hgapSE : s.1 + vsS.length < e.1 :=
        gapr_of_lt h.1 hmemS hmemE (by simpa using hslt)
      rw [succUnwrap_eq, addUnwrap_eq]
      -- the trimmed (or removed) start region
      set m1 := (if s.2 = 0 then btRemove m s.1
                 else btInsert m s.1 (vsS.take s.2)) with hm1def
      have htk : (vsS.take s.2).length = s.2 := by
        rw [List.length_take]
        omega
      have hinv1 : Inv M m1 := by
        rw [hm1def]
        by_cases hs0 : s.2 = 0
        · rw [if_pos hs0]
          exact h.btRemove s.1
        · rw [if_neg hs0]
          refine h.btInsert ?_ (by rw [htk]; omega) ?_ ?_
          · exact List.length_pos.mp (by rw [htk]; omega)
          · intro f hfm hlt
            have := hloS f hfm hlt
            unfold GapR
            dsimp only
            omega
          · intro f hfm hlt
            have := hhiS f hfm hlt
            unfold GapR
            dsimp only
            rw [htk]
            omega
      have hmem1 : ∀ f ∈ m1, f = (s.1, vsS.take s.2) ∨ (f ∈ m ∧ f.1 ≠ s.1) := by
        intro f hfm
        rw [hm1def] at hfm
        by_cases hs0 : s.2 = 0
        · rw [if_pos hs0, mem_btRemove_iff h.ksorted] at hfm
          exact Or.inr hfm
        · rw [if_neg hs0, mem_btInsert_iff h.ksorted] at hfm
          exact hfm
      have hmem1' : ∀ f ∈ m, f.1 ≠ s.1 → f ∈ m1 := by
        intro f hfm hfne
        rw [hm1def]
        by_cases hs0 : s.2 = 0
        · rw [if_pos hs0, mem_btRemove_iff h.ksorted]
          exact ⟨hfm, hfne⟩
        · rw [if_neg hs0, mem_btInsert_iff h.ksorted]
          exact Or.inr ⟨hfm, hfne⟩
      have hinv2 : Inv M (btClearBetween m1 s.1 e.1) :=
        hinv1.btClearBetween s.1 e.1
      have hmemE2 : (e.1, vsE) ∈ btClearBetween m1 s.1 e.1 := by
        rw [mem_btClearBetween_iff]
        exact ⟨hmem1' _ hmemE (by omega), Or.inr (le_refl e.1)⟩
      have hgetE2 : btGet (btClearBetween m1 s.1 e.1) e.1 = some vsE :=
        (btGet_eq_some_iff hinv2.ksorted).mpr hmemE2
      rw [hgetE2]
      simp only [Option.getD_some]
      have hmem2 : ∀ f ∈ btClearBetween m1 s.1 e.1,
          (f = (s.1, vsS.take s.2) ∨ (f ∈ m ∧ f.1 ≠ s.1)) ∧
            (f.1 ≤ s.1 ∨ e.1 ≤ f.1) := by
        intro f hfm
        rw [mem_btClearBetween_iff] at hfm
        exact ⟨hmem1 f hfm.1, hfm.2⟩
      by_cases hlast : vsE.length - 1 = e.2
      · rw [if_pos hlast]
        exact hinv2.btRemove e.1
      · rw [if_neg hlast]
        have hin : e.2 + 1 < vsE.length := by omega
        have hdk : (vsE.drop (e.2 + 1)).length = vsE.length - (e.2 + 1) :=
          List.length_drop _ _
        refine (hinv2.btRemove e.1).btInsert ?_ (by rw [hdk]; omega) ?_ ?_
        · exact List.length_pos.mp (by rw [hdk]; omega)
        · intro f hfm hlt
          rw [mem_btRemove_iff hinv2.ksorted] at hfm
          obtain ⟨hfm, hfne⟩ := hfm
          obtain ⟨hf1, hf2⟩ := hmem2 f hfm
          unfold GapR
          dsimp only
          rcases hf1 with rfl | ⟨hfm', hfne'⟩
          · dsimp only
            rw [htk]
            omega
          · rcases hf2 with hle | hge
            · have : f.1 < s.1 := by omega
              have := hloS f hfm' this
              omega
            · have : e.1 < f.1 := by omega
              have := hhiE f hfm' this
              omega
        · intro f hfm hlt
          rw [mem_btRemove_iff hinv2.ksorted] at hfm
          obtain ⟨hfm, hfne⟩ := hfm
          obtain ⟨hf1, hf2⟩ := hmem2 f hfm
          unfold GapR
          dsimp only
          rcases hf1 with rfl | ⟨hfm', hfne'⟩
          · dsimp only at hlt
            omega
          · have : e.1 < f.1 := by omega
            have := hhiE f hfm' this
            rw [hdk]
            omega

theorem insert_slice_inv {M : Nat} {m : ContiguousMap V} {key : Nat}
    {vs : List V} (h : Inv M m) (hkey : key ≤ M) :
    Inv M (insert_slice M m key vs) := by
  induction vs generalizing m key with
  | nil => exact h
  | cons v vs ih =>
    unfold insert_slice
    cases hadd : keyAddOne M key with
    | some k2 =>
      obtain ⟨rfl, hkM⟩ := keyAddOne_some hadd
      exact ih (insert_inv h hkey) (by omega)
    | none => exact insert_inv h hkey

theorem clear_with_len_inv {M : Nat} {m : ContiguousMap V} {start n : Nat}
    (h : Inv M m) : Inv M (clear_with_len M m start n) := by
  unfold clear_with_len
  cases keyAddUsize M start n <;> exact clear_range_inv h

theorem applyOp_inv {M : Nat} {m : ContiguousMap V} {op : Op V}
    (h : Inv M m) (hv : OpValid M op) : Inv M (applyOp M m op) := by
  cases op with
  | ins k v => exact insert_inv h hv
  | insSlice k vs => exact insert_slice_inv h hv
  | rem k => exact remove_inv h
  | clr => exact ⟨by simp [applyOp, clear], by simp [applyOp, clear]⟩
  | clrRange r => exact clear_range_inv h
  | clrLen k n => exact clear_with_len_inv h

theorem applyOps_inv {M : Nat} (ops : List (Op V))
    (hv : ∀ op ∈ ops, OpValid M op) : Inv M (applyOps M ops) := by
  have hgen : ∀ (l : List (Op V)) (m : ContiguousMap V),
      (∀ op ∈ l, OpValid M op) → Inv M m →
      Inv M (l.foldl (applyOp M) m) := by
    intro l
    induction l with
    | nil => exact fun m _ hm => hm
    | cons op rest ih =>
      intro m hv2 hm
      exact ih _ (fun o ho => hv2 o (List.mem_cons_of_mem _ ho))
        (applyOp_inv hm (hv2 op (List.mem_cons_self _ _)))
  exact hgen ops [] hv ⟨List.Pairwise.nil, by simp⟩

/-- C1: for every sequence of `insert`, `insert_slice`, `remove`, `clear`,
`clear_range` and `clear_with_len` operations whose key arguments lie in the
key domain, starting from the empty `ContiguousMap`, the resulting internal
state (hence, applying this to every prefix, the state after each
operation) satisfies: no region's value sequence is empty; for any two
regions the earlier one ends strictly before the key preceding the later
one's start (`a.1 + a.2.length < b.1`, i.e. regions neither overlap nor
touch); every stored key is covered by exactly one region (and hence at
exactly one offset, the offset being determined as `key - start`); and
`len()` equals the sum of the lengths of all regions' value sequences. -/
theorem C1_invariant_preservation {V : Type u} (M : Nat) (ops : List (Op V))
    (hv : ∀ op ∈ ops, OpValid M op) :
    (∀ e ∈ applyOps M ops, e.2 ≠ []) ∧
    (applyOps M ops).Pairwise (fun a b => a.1 + a.2.length < b.1) ∧
    (∀ k a b, a ∈ applyOps M ops → b ∈ applyOps M ops →
        covers a k → covers b k → a = b) ∧
    len (applyOps M ops) = ((applyOps M ops).map (fun e => e.2.length)).sum := by
  have h := applyOps_inv (M := M) ops hv
  exact ⟨fun e he => (h.2 e he).1, h.1,
    fun k a b ha hb hca hcb => covers_unique h.1 ha hb hca hcb, rfl⟩

/-- Witness for C1 at a concrete operation sequence over `u8` keys. -/
theorem C1_invariant_preservation_witness :
    (∀ e ∈ applyOps 255 [Op.ins 10 (1 : Nat), Op.insSlice 253 [7, 8, 9],
        Op.ins 12 2, Op.ins 11 3, Op.rem 11,
        Op.clrRange ⟨Bd.incl 5, Bd.excl 11⟩, Op.clrLen 254 2, Op.ins 0 5],
      e.2 ≠ []) ∧
    (applyOps 255 [Op.ins 10 (1 : Nat), Op.insSlice 253 [7, 8, 9],
        Op.ins 12 2, Op.ins 11 3, Op.rem 11,
        Op.clrRange ⟨Bd.incl 5, Bd.excl 11⟩, Op.clrLen 254 2,
        Op.ins 0 5]).Pairwise (fun a b => a.1 + a.2.length < b.1) ∧
    (∀ k a b,
        a ∈ applyOps 255 [Op.ins 10 (1 : Nat), Op.insSlice 253 [7, 8, 9],
          Op.ins 12 2, Op.ins 11 3, Op.rem 11,
          Op.clrRange ⟨Bd.incl 5, Bd.excl 11⟩, Op.clrLen 254 2, Op.ins 0 5] →
        b ∈ applyOps 255 [Op.ins 10 (1 : Nat), Op.insSlice 253 [7, 8, 9],
          Op.ins 12 2, Op.ins 11 3, Op.rem 11,
          Op.clrRange ⟨Bd.incl 5, Bd.excl 11⟩, Op.clrLen 254 2, Op.ins 0 5] →
        covers a k → covers b k → a = b) ∧
    len (applyOps 255 [Op.ins 10 (1 : Nat), Op.insSlice 253 [7, 8, 9],
        Op.ins 12 2, Op.ins 11 3, Op.rem 11,
        Op.clrRange ⟨Bd.incl 5, Bd.excl 11⟩, Op.clrLen 254 2, Op.ins 0 5]) =
      ((applyOps 255 [Op.ins 10 (1 : Nat), Op.insSlice 253 [7, 8, 9],
          Op.ins 12 2, Op.ins 11 3, Op.rem 11,
          Op.clrRange ⟨Bd.incl 5, Bd.excl 11⟩, Op.clrLen 254 2,
          Op.ins 0 5]).map (fun e => e.2.length)).sum :=
  C1_invariant_preservation 255 _ (by decide)

/-- C4: on an invariant-satisfying map, whenever `remove(key)` returns a
value, a subsequent `get(key)` on the result returns none; removing the
sole element of a region deletes that region entirely; removing the front
element of a region with at least two elements relabels the region to start
at the key's successor; and concretely, on the single region
`{10: [0, 1, 2]}`, `remove(10)` returns value `0` and leaves exactly the
region `{11: [1, 2]}`. -/
theorem C4_remove_get {V : Type u} (M : Nat) (m : ContiguousMap V)
    (key : Nat) (hinv : Inv M m) :
    (∀ v m2, remove M m key = (m2, some v) → get m2 key = none) ∧
    (∀ v, (key, [v]) ∈ m → remove M m key = (btRemove m key, some v)) ∧
    (∀ vs, (key, vs) ∈ m → 2 ≤ vs.length →
        remove M m key =
          (btInsert (btRemove m key) (key + 1) vs.tail, vs.head?)) ∧
    remove 255 [(10, [0, 1, 2])] 10 = ([(11, [(1 : Nat), 2])], some 0) := by
  refine ⟨?_, ?_, ?_, by decide⟩
  · intro v m2 hrm
    have hm2 : Inv M (remove M m key).1 := remove_inv hinv
    cases hf : btFindLE m key with
    | none =>
      rw [remove_shape_nofind hf] at hrm
      simp at hrm
    | some e =>
      obtain ⟨k0, vs⟩ := e
      have hmem := btFindLE_mem hf
      have hk0 : k0 ≤ key := btFindLE_le hf
      obtain ⟨hne, hbd⟩ := hinv.2 _ hmem
      simp only at hbd
      have hlen := List.length_pos.mpr hne
      simp only at hlen
      by_cases hout : vs.length - 1 < key - k0
      · rw [remove_shape_out hf hout] at hrm
        simp at hrm
      · by_cases hlast : key - k0 = vs.length - 1
        · rw [remove_shape_last hf hlast] at hrm hm2
          dsimp only at hm2
          simp only [Prod.mk.injEq] at hrm
          obtain ⟨rfl, -⟩ := hrm
          refine get_not_covered hm2.1 ?_
          rintro ⟨f, hfm, hfc⟩
          by_cases hone : vs.dropLast.isEmpty
          · rw [if_pos hone] at hfm
            have hlen1 : vs.length = 1 := by
              rw [List.isEmpty_iff, ← List.length_eq_zero,
                List.length_dropLast] at hone
              omega
            have hkey : key = k0 := by omega
            subst hkey
            rw [mem_btRemove_iff hinv.ksorted] at hfm
            have := covers_unique hinv.1 hfm.1 hmem hfc
              ⟨le_refl key, by simp only; omega⟩
            exact hfm.2 (by rw [this])
          · rw [if_neg hone] at hfm
            rw [List.isEmpty_iff, ← List.length_eq_zero,
              List.length_dropLast] at hone
            have hge2 : 2 ≤ vs.length := by omega
            have hkey : key = k0 + vs.length - 1 := by omega
            rw [mem_btInsert_iff hinv.ksorted] at hfm
            rcases hfm with rfl | ⟨hfm, hfne⟩
            · obtain ⟨hc1, hc2⟩ := hfc
              simp only [List.length_dropLast] at hc1 hc2
              omega
            · have := covers_unique hinv.1 hfm hmem hfc
                ⟨by omega, by simp only; omega⟩
              exact hfne (by rw [this])
        · by_cases hzero : key - k0 = 0
          · have hkey : key = k0 := by omega
            subst hkey
            have hge2 : 2 ≤ vs.length := by omega
            rw [remove_shape_front hf hge2] at hrm hm2
            rw [succUnwrap_eq] at hrm hm2
            dsimp only at hm2
            simp only [Prod.mk.injEq] at hrm
            obtain ⟨rfl, -⟩ := hrm
            refine get_not_covered hm2.1 ?_
            rintro ⟨f, hfm, hfc⟩
            rw [mem_btInsert_iff (hinv.btRemove key).ksorted] at hfm
            rcases hfm with rfl | ⟨hfm, hfne⟩
            · obtain ⟨hc1, hc2⟩ := hfc
              simp only at hc1
              omega
            · rw [mem_btRemove_iff hinv.ksorted] at hfm
              have := covers_unique hinv.1 hfm.1 hmem hfc
                ⟨le_refl key, by simp only; omega⟩
              exact hfm.2 (by rw [this])
          · have hpos : 0 < key - k0 := by omega
            have hin : key - k0 < vs.length - 1 := by omega
            rw [remove_shape_interior hf hpos hin] at hrm hm2
            rw [succUnwrap_eq] at hrm hm2
            dsimp only at hm2
            simp only [Prod.mk.injEq] at hrm
            obtain ⟨rfl, -⟩ := hrm
            have hm1 : Inv M (btInsert m k0 (vs.take (key - k0))) := by
              refine hinv.btInsert ?_ (by rw [List.length_take]; omega) ?_ ?_
              · exact List.length_pos.mp (by rw [List.length_take]; omega)
              · intro f hfm hlt
                have := gapr_of_lt hinv.1 hfm hmem (by simpa using hlt)
                unfold GapR
                dsimp only
                omega
              · intro f hfm hlt
                have := gapr_of_lt hinv.1 hmem hfm (by simpa using hlt)
                unfold GapR at this ⊢
                dsimp only at this ⊢
                rw [List.length_take]
                omega
            refine get_not_covered hm2.1 ?_
            rintro ⟨f, hfm, hfc⟩
            rw [mem_btInsert_iff hm1.ksorted] at hfm
            rcases hfm with rfl | ⟨hfm, hfne⟩
            · obtain ⟨hc1, hc2⟩ := hfc
              simp only at hc1
              omega
            · rw [mem_btInsert_iff hinv.ksorted] at hfm
              rcases hfm with rfl | ⟨hfm, hfne2⟩
              · obtain ⟨hc1, hc2⟩ := hfc
                simp only [List.length_take] at hc2
                omega
              · have := covers_unique hinv.1 hfm hmem hfc
                  ⟨by omega, by simp only; omega⟩
                exact hfne2 (by rw [this])
  · intro v hmem
    have hf : btFindLE m key = some (key, [v]) :=
      btFindLE_covering hinv.1 hmem ⟨le_refl key, by simp⟩
    rw [remove_shape_last hf (by simp)]
    simp
  · intro vs hmem hge2
    have hf : btFindLE m key = some (key, vs) :=
      btFindLE_covering hinv.1 hmem ⟨le_refl key, by simp only; omega⟩
    rw [remove_shape_front hf hge2, succUnwrap_eq]

/-- Witness for C4: removing key 10 from `{10: [0, 1, 2]}` leaves
`{11: [1, 2]}`, in which key 10 is absent; removing the sole element of
`{10: [5]}` deletes the whole region. -/
theorem C4_remove_get_witness :
    get [(11, [(1 : Nat), 2])] 10 = none ∧
    remove 255 [(10, [(5 : Nat)])] 10 = (btRemove [(10, [5])] 10, some 5) :=
  ⟨(C4_remove_get 255 [(10, [0, 1, 2])] 10 (by decide)).1 0 [(11, [1, 2])]
      (by decide),
   (C4_remove_get 255 [(10, [(5 : Nat)])] 10 (by decide)).2.1 5
      (by decide)⟩

/-- C5: removing a strictly interior element (offset neither 0 nor last) of
a region with three or more elements keeps the elements before it as a
region under the original start key, re-inserts the elements after it as a
region under the removed key's successor, and returns the removed element;
the kept parts and the removed element concatenate back to the original
sequence.  Concretely, on `{10: [0, 1, 2]}`, `remove(11)` returns `1` and
leaves exactly the regions `{10: [0]}` and `{12: [2]}`. -/
theorem C5_split_correctness {V : Type u} (M : Nat) (m : ContiguousMap V)
    (k0 idx : Nat) (vs : List V) (v : V) (hinv : Inv M m)
    (hmem : (k0, vs) ∈ m) (hlen3 : 3 ≤ vs.length) (hpos : 0 < idx)
    (hin : idx < vs.length - 1) (hv : vs[idx]? = some v) :
    remove M m (k0 + idx) =
      (btInsert (btInsert m k0 (vs.take idx)) (k0 + idx + 1)
         (vs.drop (idx + 1)), some v) ∧
    vs.take idx ++ v :: vs.drop (idx + 1) = vs ∧
    remove 255 [(10, [0, 1, 2])] 11 =
      ([(10, [(0 : Nat)]), (12, [2])], some 1) := by
  have hf : btFindLE m (k0 + idx) = some (k0, vs) :=
    btFindLE_covering hinv.1 hmem ⟨by omega, by simp only; omega⟩
  have hidx : k0 + idx - k0 = idx := by omega
  have hlt : idx < vs.length := by omega
  refine ⟨?_, ?_, by decide⟩
  · rw [remove_shape_interior hf (by omega) (by omega), succUnwrap_eq]
    rw [hidx, hv]
  · have hdrop := List.drop_eq_getElem_cons hlt
    rw [List.getElem?_eq_getElem hlt, Option.some.injEq] at hv
    rw [← hv, ← hdrop]
    exact List.take_append_drop idx vs

theorem btInsert_length_mem {m : ContiguousMap V} (hs : KSorted m)
    {k : Nat} {u w : List V} (hmem : (k, u) ∈ m) :
    (btInsert m k w).length = m.length := by
  induction m with
  | nil => cases hmem
  | cons g rest ih =>
    obtain ⟨hg, hrest⟩ := List.pairwise_cons.mp hs
    obtain ⟨gk, gv⟩ := g
    simp only [btInsert]
    rcases List.mem_cons.mp hmem with heq | h
    · rw [Prod.mk.injEq] at heq
      obtain ⟨rfl, rfl⟩ := heq
      rw [if_neg (by omega), if_pos rfl]
      simp
    · have hk := hg _ h
      simp only at hk
      rw [if_neg (by omega), if_neg (by omega)]
      simp only [List.length_cons]
      rw [ih hrest h]

theorem btRemove_length_mem {m : ContiguousMap V} (hs : KSorted m)
    {k : Nat} {u : List V} (hmem : (k, u) ∈ m) :
    (btRemove m k).length + 1 = m.length := by
  induction m with
  | nil => cases hmem
  | cons g rest ih =>
    obtain ⟨hg, hrest⟩ := List.pairwise_cons.mp hs
    obtain ⟨gk, gv⟩ := g
    simp only [btRemove]
    rcases List.mem_cons.mp hmem with heq | h
    · rw [Prod.mk.injEq] at heq
      obtain ⟨rfl, rfl⟩ := heq
      rw [if_pos rfl]
      simp
    · have hk := hg _ h
      simp only at hk
      rw [if_neg (by omega)]
      simp only [List.length_cons]
      rw [ih hrest h]

/-- Witness for C5 on the claim's own example. -/
theorem C5_split_correctness_witness :
    remove 255 [(10, [(0 : Nat), 1, 2])] (10 + 1) =
      (btInsert (btInsert [(10, [(0 : Nat), 1, 2])] 10 ([0, 1, 2].take 1))
         (10 + 1 + 1) ([0, 1, 2].drop (1 + 1)), some 1) ∧
    [0, 1, 2].take 1 ++ 1 :: [0, 1, 2].drop (1 + 1) = [(0 : Nat), 1, 2] :=
  ⟨(C5_split_correctness 255 [(10, [0, 1, 2])] 10 1 [0, 1, 2] 1 (by decide)
      (by decide) (by decide) (by decide) (by decide) (by decide)).1,
   (C5_split_correctness 255 [(10, [0, 1, 2])] 10 1 [0, 1, 2] 1 (by decide)
      (by decide) (by decide) (by decide) (by decide) (by decide)).2.1⟩

/-- The original C2 example is false on the code: the region `{1: [10, 11]}`
already covers key 2 (at offset 1), so `insert(2, 12)` overwrites the value
`11` in place — returning `Some(11)` — and leaves the single region
`{1: [10, 12]}`, not `{1: [10, 11, 12]}`. -/
theorem C2_counterexample :
    insert 255 [(1, [10, 11])] 2 (12 : Nat) = ([(1, [10, 12])], some 11) ∧
    (insert 255 [(1, [10, 11])] 2 (12 : Nat)).1 ≠ [(1, [10, 11, 12])] := by
  constructor
  · decide
  · decide

/-- C2 (amended): for every invariant-satisfying map and in-domain key,
`insert(k, v)` followed by `get(k)` returns `Some(v)`; inserting at the key
one past the end of an existing region appends to (and possibly
forward-merges with) existing regions rather than creating an additional
region, so the region count never grows; and for a map holding exactly the
single region `{1: [10, 11]}` (covering keys 1 and 2), `insert(3, 12)` —
at the key adjacent to the region's end — results in exactly one region
`{1: [10, 11, 12]}`, not two regions. -/
theorem C2_insert_get {V : Type u} (M : Nat) (m : ContiguousMap V)
    (key : Nat) (v : V) (hinv : Inv M m) (hkey : key ≤ M) :
    get (insert M m key v).1 key = some v ∧
    (∀ k0 vs, (k0, vs) ∈ m → key = k0 + vs.length →
      num_contiguous_regions (insert M m key v).1 ≤
        num_contiguous_regions m) ∧
    insert 255 [(1, [10, 11])] 3 (12 : Nat) = ([(1, [10, 11, 12])], none) := by
  have hm2 : Inv M (insert M m key v).1 := insert_inv hinv hkey
  refine ⟨?_, ?_, by decide⟩
  · cases hf : btFindLE m key with
    | none =>
      rw [insert_shape_nofind hf] at hm2 ⊢
      cases hadd : keyAddOne M key with
      | none =>
        rw [insertFresh_shape_isolated2 hadd] at hm2 ⊢
        dsimp only at hm2 ⊢
        rw [get_covering hm2.1
          ((mem_btInsert_iff hinv.ksorted).mpr (Or.inl rfl))
          ⟨le_refl key, by simp⟩]
        simp
      | some k1 =>
        cases hget : btGet m k1 with
        | none =>
          rw [insertFresh_shape_isolated1 hadd hget] at hm2 ⊢
          dsimp only at hm2 ⊢
          rw [get_covering hm2.1
            ((mem_btInsert_iff hinv.ksorted).mpr (Or.inl rfl))
            ⟨le_refl key, by simp⟩]
          simp
        | some vs1 =>
          rw [insertFresh_shape_merge hadd hget] at hm2 ⊢
          dsimp only at hm2 ⊢
          rw [get_covering hm2.1
            ((mem_btInsert_iff (hinv.btRemove k1).ksorted).mpr (Or.inl rfl))
            ⟨le_refl key, by simp⟩]
          simp
    | some e =>
      obtain ⟨k0, vs⟩ := e
      have hmem := btFindLE_mem hf
      have hk0 : k0 ≤ key := btFindLE_le hf
      rcases Nat.lt_trichotomy (key - k0) vs.length with hidx | hidx | hidx
      · rw [insert_shape_overwrite hf hidx] at hm2 ⊢
        dsimp only at hm2 ⊢
        rw [get_covering hm2.1
          ((mem_btInsert_iff hinv.ksorted).mpr (Or.inl rfl))
          ⟨hk0, by simp only [List.length_set]; omega⟩]
        exact List.getElem?_set_eq hidx
      · cases hadd : keyAddOne M key with
        | none =>
          rw [insert_shape_append_alone2 hf hidx hadd] at hm2 ⊢
          dsimp only at hm2 ⊢
          rw [get_covering hm2.1
            ((mem_btInsert_iff hinv.ksorted).mpr (Or.inl rfl))
            ⟨hk0, by simp only [List.length_append, List.length_cons,
              List.length_nil]; omega⟩]
          have : key - k0 = vs.length := hidx
          rw [this]
          exact List.getElem?_concat_length vs v
        | some k1 =>
          cases hget : btGet m k1 with
          | none =>
            rw [insert_shape_append_alone1 hf hidx hadd hget] at hm2 ⊢
            dsimp only at hm2 ⊢
            rw [get_covering hm2.1
              ((mem_btInsert_iff hinv.ksorted).mpr (Or.inl rfl))
              ⟨hk0, by simp only [List.length_append, List.length_cons,
                List.length_nil]; omega⟩]
            have : key - k0 = vs.length := hidx
            rw [this]
            exact List.getElem?_concat_length vs v
          | some vs1 =>
            rw [insert_shape_append_merge hinv.ksorted hf hidx hadd hget]
              at hm2 ⊢
            dsimp only at hm2 ⊢
            rw [get_covering hm2.1
              ((mem_btInsert_iff (hinv.btRemove k1).ksorted).mpr (Or.inl rfl))
              ⟨hk0, by simp only [List.length_append, List.length_cons,
                List.length_nil]; omega⟩]
            have h1 : key - k0 = vs.length := hidx
            rw [h1,
              List.getElem?_append_left
                (show vs.length < (vs ++ [v]).length by simp)]
            exact List.getElem?_concat_length vs v
      · rw [insert_shape_far hf hidx] at hm2 ⊢
        have hnk : ∀ u, (key, u) ∉ m := by
          intro u hu
          have := btFindLE_max hinv.ksorted hf (key, u) hu (le_refl key)
          simp only at this
          omega
        cases hadd : keyAddOne M key with
        | none =>
          rw [insertFresh_shape_isolated2 hadd] at hm2 ⊢
          dsimp only at hm2 ⊢
          rw [get_covering hm2.1
            ((mem_btInsert_iff hinv.ksorted).mpr (Or.inl rfl))
            ⟨le_refl key, by simp⟩]
          simp
        | some k1 =>
          cases hget : btGet m k1 with
          | none =>
            rw [insertFresh_shape_isolated1 hadd hget] at hm2 ⊢
            dsimp only at hm2 ⊢
            rw [get_covering hm2.1
              ((mem_btInsert_iff hinv.ksorted).mpr (Or.inl rfl))
              ⟨le_refl key, by simp⟩]
            simp
          | some vs1 =>
            rw [insertFresh_shape_merge hadd hget] at hm2 ⊢
            dsimp only at hm2 ⊢
            rw [get_covering hm2.1
              ((mem_btInsert_iff (hinv.btRemove k1).ksorted).mpr (Or.inl rfl))
              ⟨le_refl key, by simp⟩]
            simp
  · intro k0 vs hmem hkeyeq
    have hne := entry_nonempty hinv hmem
    have hlen := List.length_pos.mpr hne
    simp only at hlen
    have hf : btFindLE m key = some (k0, vs) := by
      refine btFindLE_eq_some hinv.ksorted hmem (by omega) ?_
      intro f hfm hfk
      by_contra hgt
      push_neg at hgt
      have := gapr_of_lt hinv.1 hmem hfm (by simpa using hgt)
      simp only at this
      omega
    have hidx : key - k0 = vs.length := by omega
    cases hadd : keyAddOne M key with
    | none =>
      rw [insert_shape_append_alone2 hf hidx hadd]
      dsimp only [num_contiguous_regions]
      rw [btInsert_length_mem hinv.ksorted hmem]
    | some k1 =>
      have hk1 := keyAddOne_some hadd
      cases hget : btGet m k1 with
      | none =>
        rw [insert_shape_append_alone1 hf hidx hadd hget]
        dsimp only [num_contiguous_regions]
        rw [btInsert_length_mem hinv.ksorted hmem]
      | some vs1 =>
        rw [insert_shape_append_merge hinv.ksorted hf hidx hadd hget]
        dsimp only [num_contiguous_regions]
        have hmem1 : (k1, vs1) ∈ m := (btGet_eq_some_iff hinv.ksorted).mp hget
        have hmemR : (k0, vs) ∈ btRemove m k1 := by
          rw [mem_btRemove_iff hinv.ksorted]
          exact ⟨hmem, by simp only; omega⟩
        rw [btInsert_length_mem (hinv.btRemove k1).ksorted hmemR]
        have := btRemove_length_mem hinv.ksorted hmem1
        omega

/-- Witness for C2 (amended) at the example map. -/
theorem C2_insert_get_witness :
    get (insert 255 [(1, [(10 : Nat), 11])] 3 12).1 3 = some 12 ∧
    num_contiguous_regions (insert 255 [(1, [(10 : Nat), 11])] 3 12).1 ≤
      num_contiguous_regions [(1, [(10 : Nat), 11])] :=
  ⟨(C2_insert_get 255 [(1, [10, 11])] 3 12 (by decide) (by decide)).1,
   (C2_insert_get 255 [(1, [10, 11])] 3 12 (by decide) (by decide)).2.1
     1 [10, 11] (by decide) (by decide)⟩

/-- C9: on an invariant-satisfying map and in-domain key, `len()` grows by
exactly 1 across `insert(k, v)` when the insert is not an overwrite (the
call returns none) — including when it triggers a forward merge of two
regions — and is unchanged when the insert overwrites an existing value
(the call returns the old value). -/
theorem C9_len_after_insert {V : Type u} (M : Nat) (m : ContiguousMap V)
    (key : Nat) (v : V) (hinv : Inv M m) (hkey : key ≤ M) :
    ((insert M m key v).2 = none →
      len (insert M m key v).1 = len m + 1) ∧
    (∀ old, (insert M m key v).2 = some old →
      len (insert M m key v).1 = len m) := by
  cases hf : btFindLE m key with
  | none =>
    have hnk : ∀ u, (key, u) ∉ m := by
      intro u hu
      exact absurd (btFindLE_none hinv.ksorted hf (key, u) hu) (by simp)
    rw [insert_shape_nofind hf]
    cases hadd : keyAddOne M key with
    | none =>
      rw [insertFresh_shape_isolated2 hadd]
      refine ⟨fun _ => ?_, fun old h => by cases h⟩
      rw [len_btInsert_not_mem hnk]
      simp
    | some k1 =>
      cases hget : btGet m k1 with
      | none =>
        rw [insertFresh_shape_isolated1 hadd hget]
        refine ⟨fun _ => ?_, fun old h => by cases h⟩
        rw [len_btInsert_not_mem hnk]
        simp
      | some vs1 =>
        rw [insertFresh_shape_merge hadd hget]
        refine ⟨fun _ => ?_, fun old h => by cases h⟩
        dsimp only
        have hmem1 : (k1, vs1) ∈ m := (btGet_eq_some_iff hinv.ksorted).mp hget
        have hnk2 : ∀ u, (key, u) ∉ btRemove m k1 := by
          intro u hu
          rw [mem_btRemove_iff hinv.ksorted] at hu
          exact hnk u hu.1
        rw [len_btInsert_not_mem hnk2]
        have := len_btRemove_mem hinv.ksorted hmem1
        simp only [List.length_cons]
        omega
  | some e =>
    obtain ⟨k0, vs⟩ := e
    have hmem := btFindLE_mem hf
    have hk0 : k0 ≤ key := btFindLE_le hf
    rcases Nat.lt_trichotomy (key - k0) vs.length with hidx | hidx | hidx
    · rw [insert_shape_overwrite hf hidx]
      dsimp only
      refine ⟨(fun h => by cases h), fun old hold => ?_⟩
      have := len_btInsert_mem hinv.ksorted (w := vs.set (key - k0) v) hmem
      rw [List.length_set] at this
      omega
    · cases hadd : keyAddOne M key with
      | none =>
        rw [insert_shape_append_alone2 hf hidx hadd]
        refine ⟨fun _ => ?_, fun old h => by cases h⟩
        dsimp only
        have := len_btInsert_mem hinv.ksorted (w := vs ++ [v]) hmem
        simp only [List.length_append, List.length_cons, List.length_nil]
          at this
        omega
      | some k1 =>
        cases hget : btGet m k1 with
        | none =>
          rw [insert_shape_append_alone1 hf hidx hadd hget]
          refine ⟨fun _ => ?_, fun old h => by cases h⟩
          dsimp only
          have := len_btInsert_mem hinv.ksorted (w := vs ++ [v]) hmem
          simp only [List.length_append, List.length_cons, List.length_nil]
            at this
          omega
        | some vs1 =>
          rw [insert_shape_append_merge hinv.ksorted hf hidx hadd hget]
          refine ⟨fun _ => ?_, fun old h => by cases h⟩
          dsimp only
          have hk1 := keyAddOne_some hadd
          have hmem1 : (k1, vs1) ∈ m :=
            (btGet_eq_some_iff hinv.ksorted).mp hget
          have hmemR : (k0, vs) ∈ btRemove m k1 := by
            rw [mem_btRemove_iff hinv.ksorted]
            exact ⟨hmem, by simp only; omega⟩
          have h1 := len_btInsert_mem (hinv.btRemove k1).ksorted
            (w := vs ++ [v] ++ vs1) hmemR
          have h2 := len_btRemove_mem hinv.ksorted hmem1
          simp only [List.length_append, List.length_cons, List.length_nil]
            at h1
          omega
    · rw [insert_shape_far hf hidx]
      have hnk : ∀ u, (key, u) ∉ m := by
        intro u hu
        have := btFindLE_max hinv.ksorted hf (key, u) hu (le_refl key)
        simp only at this
        omega
      cases hadd : keyAddOne M key with
      | none =>
        rw [insertFresh_shape_isolated2 hadd]
        refine ⟨fun _ => ?_, fun old h => by cases h⟩
        rw [len_btInsert_not_mem hnk]
        simp
      | some k1 =>
        cases hget : btGet m k1 with
        | none =>
          rw [insertFresh_shape_isolated1 hadd hget]
          refine ⟨fun _ => ?_, fun old h => by cases h⟩
          rw [len_btInsert_not_mem hnk]
          simp
        | some vs1 =>
          rw [insertFresh_shape_merge hadd hget]
          refine ⟨fun _ => ?_, fun old h => by cases h⟩
          dsimp only
          have hmem1 : (k1, vs1) ∈ m :=
            (btGet_eq_some_iff hinv.ksorted).mp hget
          have hnk2 : ∀ u, (key, u) ∉ btRemove m k1 := by
            intro u hu
            rw [mem_btRemove_iff hinv.ksorted] at hu
            exact hnk u hu.1
          rw [len_btInsert_not_mem hnk2]
          have := len_btRemove_mem hinv.ksorted hmem1
          simp only [List.length_cons]
          omega

/-- Witness for C9: inserting at key 12 merges `{10: [0, 1]}` with
`{13: [7]}` and still grows `len` by exactly 1; overwriting key 10 leaves
`len` unchanged. -/
theorem C9_len_after_insert_witness :
    len (insert 255 [(10, [(0 : Nat), 1]), (13, [7])] 12 5).1 =
      len [(10, [(0 : Nat), 1]), (13, [7])] + 1 ∧
    len (insert 255 [(10, [(0 : Nat), 1]), (13, [7])] 10 9).1 =
      len [(10, [(0 : Nat), 1]), (13, [7])] :=
  ⟨(C9_len_after_insert 255 [(10, [0, 1]), (13, [7])] 12 5 (by decide)
      (by decide)).1 (by decide),
   (C9_len_after_insert 255 [(10, [0, 1]), (13, [7])] 10 9 (by decide)
      (by decide)).2 0 (by decide)⟩

/-- Within a fully covered key range starting inside region `(k0, vs)`,
every key of the range stays inside that same region (regions that touch
would have been merged, so a covered run cannot hop regions without a
gap). -/
theorem run_in_one_region {M : Nat} {m : ContiguousMap V} (hinv : Inv M m)
    {k0 s e : Nat} {vs : List V} (hmem : (k0, vs) ∈ m)
    (hcov : covers (k0, vs) s)
    (hall : ∀ k, s ≤ k → k < e → covered m k) :
    ∀ j, s + j < e → s + j < k0 + vs.length := by
  intro j
  induction j with
  | zero =>
    intro _
    obtain ⟨-, hc2⟩ := hcov
    simpa using hc2
  | succ j ih =>
    intro hlt
    have h1 : s + j < k0 + vs.length := ih (by omega)
    obtain ⟨hcs, -⟩ := hcov
    simp only at hcs
    obtain ⟨f, hfm, hfc⟩ := hall (s + j + 1) (by omega) (by omega)
    obtain ⟨hfc1, hfc2⟩ := hfc
    have hfeq : f = (k0, vs) := by
      rcases pairwise_mem_rel hinv.1 hfm hmem with heq | hg | hg
      · exact heq
      · exfalso
        unfold GapR at hg
        simp only at hg
        omega
      · exfalso
        unfold GapR at hg
        simp only at hg
        omega
    subst hfeq
    simp only at hfc2
    omega

/-- C6: on an invariant-satisfying map, `get_slice` over a non-empty
half-open key range returns none whenever some key of the range is not
stored (the range starts before, ends after, or straddles a gap), and
returns exactly the contiguous run of stored values when every key of the
range is stored; concretely, for the single region `{3: [13, 14, 15]}`,
`get_slice(3..6)` is `[13, 14, 15]`, while `get_slice(2..6)` and
`get_slice(3..7)` are none. -/
theorem C6_get_slice_boundary {V : Type u} (M : Nat) (m : ContiguousMap V)
    (s e : Nat) (hinv : Inv M m) (hse : s < e) :
    ((∀ k, s ≤ k → k < e → covered m k) →
      ∃ ws, get_slice m s (Bd.excl e) = .ok (some ws) ∧
        ws.length = e - s ∧ ∀ i, i < e - s → ws[i]? = get m (s + i)) ∧
    ((∃ k, s ≤ k ∧ k < e ∧ ¬ covered m k) →
      get_slice m s (Bd.excl e) = .ok none) ∧
    get_slice [(3, [13, 14, 15])] 3 (Bd.excl 6) =
      .ok (some [(13 : Nat), 14, 15]) ∧
    get_slice [(3, [(13 : Nat), 14, 15])] 2 (Bd.excl 6) = .ok none ∧
    get_slice [(3, [(13 : Nat), 14, 15])] 3 (Bd.excl 7) = .ok none := by
  refine ⟨?_, ?_, by rfl, by rfl, by rfl⟩
  · intro hall
    obtain ⟨f, hfm, hfc⟩ := hall s (le_refl s) hse
    obtain ⟨k0, vs⟩ := f
    obtain ⟨hfc1, hfc2⟩ := hfc
    simp only at hfc1 hfc2
    have hf : btFindLE m s = some (k0, vs) :=
      btFindLE_covering hinv.1 hfm ⟨hfc1, by simp only; omega⟩
    have hend : e ≤ k0 + vs.length := by
      have := run_in_one_region hinv hfm ⟨hfc1, by simp only; omega⟩ hall
        (e - s - 1) (by omega)
      omega
    refine ⟨(vs.drop (s - k0)).take (e - s), ?_, ?_, ?_⟩
    · unfold get_slice
      rw [hf]
      simp only [keyDifference, if_pos hfc1, if_pos (le_of_lt hse)]
      rw [if_pos (by omega)]
      unfold chunksExactNext
      rw [if_neg (by omega), if_pos (by rw [List.length_drop]; omega)]
    · rw [List.length_take, List.length_drop]
      omega
    · intro i hi
      rw [List.getElem?_take_of_lt hi, List.getElem?_drop]
      rw [get_covering hinv.1 hfm ⟨by simp only; omega, by simp only; omega⟩]
      have heq : s + i - k0 = s - k0 + i := by omega
      rw [heq]
  · rintro ⟨k, hk1, hk2, hk3⟩
    unfold get_slice
    cases hf : btFindLE m s with
    | none => rfl
    | some f =>
      obtain ⟨k0, vs⟩ := f
      have hk0 : k0 ≤ s := btFindLE_le hf
      have hmem := btFindLE_mem hf
      simp only [keyDifference, if_pos hk0, if_pos (le_of_lt hse)]
      by_cases hoff : s - k0 < vs.length
      · rw [if_pos hoff]
        have hgt : k0 + vs.length < e := by
          by_contra hle
          push_neg at hle
          exact hk3 ⟨(k0, vs), hmem,
            ⟨by simp only; omega, by simp only; omega⟩⟩
        unfold chunksExactNext
        rw [if_neg (by omega), if_neg (by rw [List.length_drop]; omega)]
      · rw [if_neg hoff]

/-- Witness for C6: in `{3: [13, 14, 15]}` the fully covered range `4..6`
yields exactly the two stored values at keys 4 and 5, and the range `4..8`,
which runs past the region, yields none. -/
theorem C6_get_slice_boundary_witness :
    (∃ ws, get_slice [(3, [(13 : Nat), 14, 15])] 4 (Bd.excl 6) =
        .ok (some ws) ∧ ws.length = 6 - 4 ∧
        ∀ i, i < 6 - 4 → ws[i]? = get [(3, [(13 : Nat), 14, 15])] (4 + i)) ∧
    get_slice [(3, [(13 : Nat), 14, 15])] 4 (Bd.excl 8) = .ok none :=
  ⟨(C6_get_slice_boundary 255 [(3, [13, 14, 15])] 4 6 (by decide)
      (by decide)).1 (by decide),
   (C6_get_slice_boundary 255 [(3, [13, 14, 15])] 4 8 (by decide)
      (by decide)).2.1 ⟨6, by decide, by decide, by decide⟩⟩

/-- C8: `insert_slice(start, values)` is exactly the sequential loop the
spec describes — one `insert` per value at `start, start.successor(), …`,
stopping early and silently as soon as the successor computation overflows
the key domain — and over the `u8` key domain (maximum key 255),
`insert_slice(254, [1, 2, 3])` stores values only at keys 254 and 255 and
discards the third value. -/
theorem C8_insert_slice_refines {V : Type u} (M : Nat) :
    (∀ (m : ContiguousMap V) (s : Nat) (vs : List V),
      insert_slice M m s vs = specInsertSeq M m s vs) ∧
    insert_slice 255 [] 254 [(1 : Nat), 2, 3] = [(254, [1, 2])] ∧
    get (insert_slice 255 [] 254 [(1 : Nat), 2, 3]) 254 = some 1 ∧
    get (insert_slice 255 [] 254 [(1 : Nat), 2, 3]) 255 = some 2 ∧
    len (insert_slice 255 [] 254 [(1 : Nat), 2, 3]) = 2 := by
  refine ⟨?_, by rfl, by rfl, by rfl, by rfl⟩
  intro m s vs
  induction vs generalizing m s with
  | nil => rfl
  | cons v rest ih =>
    unfold insert_slice specInsertSeq specKeys
    cases hadd : keyAddOne M s with
    | some s2 =>
      simp only [hadd, List.length_cons, List.zip_cons_cons, List.foldl_cons]
      exact ih (insert M m s v).1 s2
    | none =>
      simp only [hadd, List.length_cons, List.zip_cons_cons, List.foldl_cons,
        List.zip_nil_left, List.foldl_nil]

/-- C7 fails on the code: `get_slice` over the empty range `4..4` on
`{3: [13, 14, 15]}` resolves a covered start, computes slice length 0 and
reaches `slice.chunks_exact(0)`, which panics (modelled by `Except.error`)
instead of returning none — the crate's own test
`get_slice::range::empty_range` expects `None` there.  The same panic is
reached by `get_slice_with_len(k, 0)` at any stored key `k`.  The other
behaviours the claim describes do hold at these inputs: a backwards range
returns none from `get_slice`, and `clear_range` over the empty range
performs no mutation. -/
theorem C7_empty_range_panics :
    get_slice [(3, [(13 : Nat), 14, 15])] 4 (Bd.excl 4) = .error () ∧
    get_slice_with_len [(3, [(13 : Nat), 14, 15])] 4 0 = .error () ∧
    get_slice [(3, [(13 : Nat), 14, 15])] 4 (Bd.excl 3) = .ok none ∧
    get_slice_with_len ([] : ContiguousMap Nat) 4 0 = .ok none ∧
    clear_range 255 [(3, [(13 : Nat), 14, 15])] ⟨Bd.incl 4, Bd.excl 4⟩ =
      [(3, [13, 14, 15])] ∧
    clear_range 255 [(3, [(13 : Nat), 14, 15])] ⟨Bd.incl 4, Bd.excl 3⟩ =
      [(3, [13, 14, 15])] :=
  ⟨rfl, rfl, rfl, rfl, rfl, rfl⟩

/-! ### The `Key` arithmetic laws -/

/-- Normal form of the unsigned `difference`. -/
theorem uDifference_eq (umax b a : Nat) :
    uDifference umax b a =
      if a ≤ b ∧ b - a ≤ umax then some (b - a) else none := by
  unfold uDifference
  by_cases h1 : a ≤ b
  · rw [if_pos h1]
    by_cases h2 : b - a ≤ umax
    · rw [if_pos h2, if_pos ⟨h1, h2⟩]
    · rw [if_neg h2]
      split
      · rename_i hc
        exact absurd hc.2 h2
      · rfl
  · rw [if_neg h1]
    split
    · rename_i hc
      exact absurd hc.1 h1
    · rfl

/-- Normal form of the unsigned `add_usize`: the `num.try_into::<T>()`
guard is subsumed by the overflow check of `checked_add`. -/
theorem uAddUsize_eq (tmax a n : Nat) :
    uAddUsize tmax a n = if a + n ≤ tmax then some (a + n) else none := by
  unfold uAddUsize
  by_cases h1 : n ≤ tmax
  · rw [if_pos h1]
  · rw [if_neg h1]
    split
    · rename_i hc
      exact absurd (by omega) h1
    · rfl

/-- Normal form of the signed `difference` for in-domain arguments: the
four-way sign match amounts to a checked subtraction, and the unsigned
intermediate value never overflows. -/
theorem sDifference_eq (B umax : Nat) (b a : Int)
    (ha : -(B : Int) ≤ a) (hb : b ≤ (B : Int) - 1) :
    sDifference B umax b a =
      if a ≤ b ∧ b - a ≤ (umax : Int) then some (b - a).toNat else none := by
  unfold sDifference
  by_cases h1 : b < 0
  · rw [if_pos h1]
    by_cases h2 : a < 0
    · rw [if_pos h2]
      by_cases h3 : b.natAbs ≤ a.natAbs
      · rw [if_pos h3]
        simp only [Option.bind]
        by_cases h4 : a.natAbs - b.natAbs ≤ umax
        · rw [if_pos h4]
          split
          · simp only [Option.some.injEq]
            omega
          · exfalso
            omega
        · rw [if_neg h4]
          split
          · exfalso
            omega
          · rfl
      · rw [if_neg h3]
        simp only [Option.bind]
        split
        · exfalso
          omega
        · rfl
    · rw [if_neg h2]
      simp only [Option.bind]
      split
      · exfalso
        omega
      · rfl
  · rw [if_neg h1]
    by_cases h2 : a < 0
    · rw [if_pos h2]
      by_cases h3 : b.natAbs + a.natAbs ≤ 2 * B - 1
      · rw [if_pos h3]
        simp only [Option.bind]
        by_cases h4 : b.natAbs + a.natAbs ≤ umax
        · rw [if_pos h4]
          split
          · simp only [Option.some.injEq]
            omega
          · exfalso
            omega
        · rw [if_neg h4]
          split
          · exfalso
            omega
          · rfl
      · rw [if_neg h3]
        simp only [Option.bind]
        split
        · exfalso
          omega
        · rfl
    · rw [if_neg h2]
      by_cases h3 : a.natAbs ≤ b.natAbs
      · rw [if_pos h3]
        simp only [Option.bind]
        by_cases h4 : b.natAbs - a.natAbs ≤ umax
        · rw [if_pos h4]
          split
          · simp only [Option.some.injEq]
            omega
          · exfalso
            omega
        · rw [if_neg h4]
          split
          · exfalso
            omega
          · rfl
      · rw [if_neg h3]
        simp only [Option.bind]
        split
        · exfalso
          omega
        · rfl

/-- Normal form of the signed `add_usize` for an in-domain starting key:
all four source branches compute `a + n` guarded by the signed maximum and
by the `try_into` of `num` into the unsigned counterpart type. -/
theorem sAddUsize_eq (B : Nat) (a : Int) (n : Nat) (ha : -(B : Int) ≤ a) :
    sAddUsize B a n =
      if a + (n : Int) ≤ (B : Int) - 1 ∧ n ≤ 2 * B - 1 then
        some (a + (n : Int))
      else none := by
  unfold sAddUsize
  by_cases hA : 0 ≤ a
  · rw [if_pos hA]
    split
    · split
      · rename_i h1 h2
        rw [if_pos ⟨h2, by omega⟩]
      · rename_i h1 h2
        rw [if_neg (fun hc => h2 hc.1)]
    · rename_i h1
      rw [if_neg (fun hc => h1 (by omega))]
  · rw [if_neg hA]
    split
    · rename_i h1
      split
      · rename_i h2
        split
        · rename_i h3
          rw [if_pos ⟨by omega, h1⟩]
          simp only [Option.some.injEq]
          omega
        · rename_i h3
          rw [if_neg (fun hc => h3 (by omega))]
      · rename_i h2
        split
        · rename_i h4
          rw [if_pos (show a + (n : Int) ≤ (B : Int) - 1 ∧ n ≤ 2 * B - 1 by
            omega)]
          simp only [Option.some.injEq]
          omega
        · rename_i h4
          rw [if_pos (show a.natAbs - n < B by omega)]
          rw [if_pos (show a + (n : Int) ≤ (B : Int) - 1 ∧ n ≤ 2 * B - 1 by
            omega)]
          simp only [Option.some.injEq]
          omega
    · rename_i h1
      rw [if_neg (fun hc => h1 hc.2)]

/-- C10: for every width of the fixed-width `Key` implementations
(modelled by an arbitrary unsigned maximum `tmax`, an arbitrary `usize`
maximum `umax`, and an arbitrary signed half-range `B`, covering
`u8 … u128`, `usize`, `i8 … i128` and `isize`): whenever `add_one a`
returns `some b`, `difference b a` returns `some 1`; and `add_usize` and
`difference` are mutual inverses: `add_usize a n = some b` iff `b` is in
the key domain, `a ≤ b`, and `difference b a = some n`. -/
theorem C10_key_arithmetic :
    (∀ tmax umax a b : Nat, 0 < umax →
      uAddOne tmax a = some b → uDifference umax b a = some 1) ∧
    (∀ tmax umax a n b : Nat, n ≤ umax →
      (uAddUsize tmax a n = some b ↔
        b ≤ tmax ∧ a ≤ b ∧ uDifference umax b a = some n)) ∧
    (∀ B umax : Nat, ∀ a b : Int, 0 < umax → -(B : Int) ≤ a →
      sAddOne B a = some b → sDifference B umax b a = some 1) ∧
    (∀ B umax : Nat, ∀ a : Int, ∀ n : Nat, ∀ b : Int,
      -(B : Int) ≤ a → n ≤ umax →
      (sAddUsize B a n = some b ↔
        (-(B : Int) ≤ b ∧ b ≤ (B : Int) - 1 ∧ a ≤ b ∧
          sDifference B umax b a = some n))) := by
  refine ⟨?_, ?_, ?_, ?_⟩
  · intro tmax umax a b hu h
    unfold uAddOne at h
    split at h
    · simp only [Option.some.injEq] at h
      subst h
      rw [uDifference_eq]
      split
      · simp only [Option.some.injEq]
        omega
      · exfalso
        omega
    · exact absurd h (by simp)
  · intro tmax umax a n b hn
    rw [uAddUsize_eq, uDifference_eq]
    constructor
    · intro h
      split at h
      · rename_i hc
        simp only [Option.some.injEq] at h
        subst h
        refine ⟨by omega, by omega, ?_⟩
        split
        · simp only [Option.some.injEq]
          omega
        · exfalso
          omega
      · exact absurd h (by simp)
    · rintro ⟨hb, hab, hd⟩
      split at hd
      · rename_i hc
        simp only [Option.some.injEq] at hd
        split
        · simp only [Option.some.injEq]
          omega
        · exfalso
          omega
      · exact absurd hd (by simp)
  · intro B umax a b hu ha h
    unfold sAddOne at h
    split at h
    · rename_i hle
      simp only [Option.some.injEq] at h
      subst h
      rw [sDifference_eq B umax (a + 1) a ha (by omega)]
      split
      · simp only [Option.some.injEq]
        omega
      · exfalso
        omega
    · exact absurd h (by simp)
  · intro B umax a n b ha hn
    constructor
    · intro h
      rw [sAddUsize_eq B a n ha] at h
      split at h
      · rename_i hc
        simp only [Option.some.injEq] at h
        subst h
        refine ⟨by omega, by omega, by omega, ?_⟩
        rw [sDifference_eq B umax (a + (n : Int)) a ha (by omega)]
        split
        · simp only [Option.some.injEq]
          omega
        · exfalso
          omega
      · exact absurd h (by simp)
    · rintro ⟨hb1, hb2, hab, hd⟩
      rw [sDifference_eq B umax b a ha hb2] at hd
      split at hd
      · rename_i hc
        simp only [Option.some.injEq] at hd
        rw [sAddUsize_eq B a n ha]
        split
        · simp only [Option.some.injEq]
          omega
        · exfalso
          omega
      · exact absurd hd (by simp)

/-- Witness for C10 at concrete widths: `u8` keys with a 16-bit `usize`
(`tmax = 255`, `umax = 65535`) and `i8` keys (`B = 128`). -/
theorem C10_key_arithmetic_witness :
    uDifference 65535 200 199 = some 1 ∧
    (uAddUsize 255 250 5 = some 255 ↔
      255 ≤ 255 ∧ 250 ≤ 255 ∧ uDifference 65535 255 250 = some 5) ∧
    sDifference 128 65535 (-127) (-128) = some 1 ∧
    (sAddUsize 128 (-100) 27 = some (-73) ↔
      (-((128 : Nat) : Int) ≤ -73 ∧ (-73 : Int) ≤ ((128 : Nat) : Int) - 1 ∧
        (-100 : Int) ≤ -73 ∧ sDifference 128 65535 (-73) (-100) = some 27)) :=
  ⟨C10_key_arithmetic.1 255 65535 199 200 (by decide) (by decide),
   C10_key_arithmetic.2.1 255 65535 250 5 255 (by decide),
   C10_key_arithmetic.2.2.1 128 65535 (-128) (-127) (by decide) (by decide)
     (by decide),
   C10_key_arithmetic.2.2.2 128 65535 (-100) 27 (-73) (by decide) (by decide)⟩

/-! ### Iteration: the pairs of a state -/

theorem pairsFrom_length : ∀ (vs : List V) (k : Nat),
    (pairsFrom k vs).length = vs.length := by
  intro vs
  induction vs with
  | nil => intro k; rfl
  | cons v rest ih =>
    intro k
    simp only [pairsFrom, List.length_cons, ih]

theorem toPairs_length : ∀ (l : List (Entry V)),
    (toPairs l).length = (l.map (fun e => e.2.length)).sum := by
  intro l
  induction l with
  | nil => rfl
  | cons e rest ih =>
    simp only [toPairs, List.length_append, ih, List.map_cons, List.sum_cons,
      pairsFrom_length]

theorem toPairs_append : ∀ (l1 l2 : List (Entry V)),
    toPairs (l1 ++ l2) = toPairs l1 ++ toPairs l2 := by
  intro l1 l2
  induction l1 with
  | nil => rfl
  | cons e rest ih =>
    simp only [toPairs, List.cons_append, List.append_eq, ih,
      List.append_assoc]

theorem stPairs_length (st : IterState V) :
    (stPairs st).length = stSize st := by
  obtain ⟨f, l, b⟩ := st
  unfold stPairs stSize
  cases f with
  | none =>
    cases b with
    | none => simp [curPairs, toPairs_length]
    | some c =>
      obtain ⟨k, vs⟩ := c
      simp [curPairs, toPairs_length, pairsFrom_length]
  | some c =>
    obtain ⟨k, vs⟩ := c
    cases b with
    | none => simp [curPairs, toPairs_length, pairsFrom_length]
    | some c2 =>
      obtain ⟨k2, vs2⟩ := c2
      simp [curPairs, toPairs_length, pairsFrom_length]

theorem curPairs_ite (k : Nat) (rest : List V) :
    curPairs (if rest.isEmpty then none else some (k, rest)) =
      pairsFrom k rest := by
  cases rest with
  | nil => rfl
  | cons v vs => rfl

theorem pairsFrom_last : ∀ (rest : List V) (v : V) (k : Nat),
    pairsFrom k (v :: rest) =
      pairsFrom k ((v :: rest).dropLast) ++
        [(k + ((v :: rest).length - 1), rest.getLastD v)] := by
  intro rest
  induction rest with
  | nil => intro v k; simp [pairsFrom]
  | cons w ws ih =>
    intro v k
    have hk : k + ((v :: w :: ws).length - 1) =
        (k + 1) + ((w :: ws).length - 1) := by
      simp only [List.length_cons]
      omega
    rw [hk, List.dropLast_cons₂]
    have h1 : pairsFrom k (v :: w :: ws) =
        (k, v) :: pairsFrom (k + 1) (w :: ws) := rfl
    have h2 : pairsFrom k (v :: (w :: ws).dropLast) =
        (k, v) :: pairsFrom (k + 1) ((w :: ws).dropLast) := rfl
    rw [h1, h2, ih w (k + 1), List.getLastD_cons, List.cons_append]

theorem mem_pairsFrom {k : Nat} {v : V} : ∀ (vs : List V) (k0 : Nat),
    ((k, v) ∈ pairsFrom k0 vs ↔ ∃ i, k = k0 + i ∧ vs[i]? = some v) := by
  intro vs
  induction vs with
  | nil =>
    intro k0
    simp [pairsFrom]
  | cons w ws ih =>
    intro k0
    simp only [pairsFrom, List.mem_cons, ih, Prod.mk.injEq]
    constructor
    · rintro (⟨rfl, rfl⟩ | ⟨i, rfl, hv⟩)
      · exact ⟨0, by simp⟩
      · exact ⟨i + 1, by omega, by simpa using hv⟩
    · rintro ⟨i, rfl, hv⟩
      cases i with
      | zero =>
        left
        simp only [List.getElem?_cons_zero, Option.some.injEq] at hv
        exact ⟨by omega, hv.symm⟩
      | succ j =>
        right
        exact ⟨j, by omega, by simpa using hv⟩

theorem mem_pairsFrom_key : ∀ (vs : List V) (k0 : Nat) (p : Nat × V),
    p ∈ pairsFrom k0 vs → k0 ≤ p.1 ∧ p.1 < k0 + vs.length := by
  intro vs
  induction vs with
  | nil =>
    intro k0 p hp
    cases hp
  | cons w ws ih =>
    intro k0 p hp
    rw [show pairsFrom k0 (w :: ws) = (k0, w) :: pairsFrom (k0 + 1) ws from
      rfl, List.mem_cons] at hp
    rcases hp with rfl | hp
    · dsimp only
      simp only [List.length_cons]
      omega
    · have := ih (k0 + 1) p hp
      simp only [List.length_cons]
      omega

theorem pairsFrom_sorted : ∀ (vs : List V) (k0 : Nat),
    (pairsFrom k0 vs).Pairwise (fun p q => p.1 < q.1) := by
  intro vs
  induction vs with
  | nil =>
    intro k0
    exact List.Pairwise.nil
  | cons w ws ih =>
    intro k0
    refine List.Pairwise.cons ?_ (ih (k0 + 1))
    intro q hq
    have := mem_pairsFrom_key ws (k0 + 1) q hq
    omega

theorem mem_toPairs {k : Nat} {v : V} : ∀ (m : ContiguousMap V),
    ((k, v) ∈ toPairs m ↔
      ∃ e, e ∈ m ∧ ∃ i, k = e.1 + i ∧ e.2[i]? = some v) := by
  intro m
  induction m with
  | nil => simp [toPairs]
  | cons e rest ih =>
    simp only [toPairs, List.mem_append, mem_pairsFrom, ih, List.mem_cons]
    constructor
    · rintro (⟨i, hk, hv⟩ | ⟨e', he', hi⟩)
      · exact ⟨e, Or.inl rfl, i, hk, hv⟩
      · exact ⟨e', Or.inr he', hi⟩
    · rintro ⟨e', (rfl | he'), hi⟩
      · exact Or.inl hi
      · exact Or.inr ⟨e', he', hi⟩

theorem mem_toPairs_key : ∀ (m : ContiguousMap V) (p : Nat × V),
    p ∈ toPairs m → ∃ e, e ∈ m ∧ e.1 ≤ p.1 ∧ p.1 < e.1 + e.2.length := by
  intro m
  induction m with
  | nil =>
    intro p hp
    cases hp
  | cons e rest ih =>
    intro p hp
    rcases List.mem_append.mp hp with hp | hp
    · exact ⟨e, List.mem_cons_self e rest, mem_pairsFrom_key e.2 e.1 p hp⟩
    · obtain ⟨e', he', hb⟩ := ih p hp
      exact ⟨e', List.mem_cons_of_mem e he', hb⟩

theorem toPairs_sorted : ∀ {m : ContiguousMap V}, m.Pairwise GapR →
    (toPairs m).Pairwise (fun p q => p.1 < q.1) := by
  intro m
  induction m with
  | nil =>
    intro _
    exact List.Pairwise.nil
  | cons e rest ih =>
    intro hp
    rw [List.pairwise_cons] at hp
    simp only [toPairs]
    rw [List.pairwise_append]
    refine ⟨pairsFrom_sorted e.2 e.1, ih hp.2, ?_⟩
    intro p hpmem q hqmem
    obtain ⟨e', he', h1, h2⟩ := mem_toPairs_key rest q hqmem
    have hgap := hp.1 e' he'
    have hb := mem_pairsFrom_key e.2 e.1 p hpmem
    unfold GapR at hgap
    omega

/-! ### Iteration: single steps -/

theorem refillFront_some : ∀ (l : List (Entry V))
    (back : Option (Nat × List V)) (p : Nat × V) (st' : IterState V),
    refillFront l back = some (p, st') →
    toPairs l ++ curPairs back = p :: stPairs st' := by
  intro l
  induction l with
  | nil =>
    intro back p st' h
    rcases back with _ | ⟨k, _ | ⟨v, rest⟩⟩
    · exact absurd h (by simp [refillFront])
    · exact absurd h (by simp [refillFront])
    · simp only [refillFront, Option.some.injEq, Prod.mk.injEq] at h
      obtain ⟨rfl, rfl⟩ := h
      simp [stPairs, curPairs, curPairs_ite, toPairs, pairsFrom]
      exact (curPairs_ite (k + 1) rest).symm
  | cons e mrest ih =>
    intro back p st' h
    obtain ⟨k, vs⟩ := e
    rcases vs with _ | ⟨v, rest⟩
    · simp only [refillFront] at h
      simpa [toPairs, pairsFrom] using ih back p st' h
    · simp only [refillFront, Option.some.injEq, Prod.mk.injEq] at h
      obtain ⟨rfl, rfl⟩ := h
      simp [toPairs, stPairs, curPairs_ite, curPairs, pairsFrom,
        List.append_assoc]
      exact (curPairs_ite (k + 1) rest).symm

theorem refillFront_none : ∀ (l : List (Entry V))
    (back : Option (Nat × List V)),
    refillFront l back = none → toPairs l ++ curPairs back = [] := by
  intro l
  induction l with
  | nil =>
    intro back h
    rcases back with _ | ⟨k, _ | ⟨v, rest⟩⟩
    · rfl
    · rfl
    · exact absurd h (by simp [refillFront])
  | cons e mrest ih =>
    intro back h
    obtain ⟨k, vs⟩ := e
    rcases vs with _ | ⟨v, rest⟩
    · simp only [refillFront] at h
      simpa [toPairs, pairsFrom] using ih back h
    · exact absurd h (by simp [refillFront])

theorem nextImpl_some {st : IterState V} {p : Nat × V} {st' : IterState V}
    (h : nextImpl st = some (p, st')) : stPairs st = p :: stPairs st' := by
  obtain ⟨f, l, b⟩ := st
  rcases f with _ | ⟨k, _ | ⟨v, rest⟩⟩
  · simp only [nextImpl] at h
    simpa [stPairs, curPairs] using refillFront_some l b p st' h
  · simp only [nextImpl] at h
    simpa [stPairs, curPairs, pairsFrom] using refillFront_some l b p st' h
  · simp only [nextImpl, Option.some.injEq, Prod.mk.injEq] at h
    obtain ⟨rfl, rfl⟩ := h
    simp [stPairs, curPairs, curPairs_ite, pairsFrom]
    exact (curPairs_ite (k + 1) rest).symm

theorem nextImpl_none {st : IterState V} (h : nextImpl st = none) :
    stPairs st = [] := by
  obtain ⟨f, l, b⟩ := st
  rcases f with _ | ⟨k, _ | ⟨v, rest⟩⟩
  · simp only [nextImpl] at h
    simpa [stPairs, curPairs] using refillFront_none l b h
  · simp only [nextImpl] at h
    simpa [stPairs, curPairs, pairsFrom] using refillFront_none l b h
  · simp [nextImpl] at h

theorem refillBackRev_some : ∀ (r : List (Entry V))
    (front : Option (Nat × List V)) (p : Nat × V) (st' : IterState V),
    refillBackRev front r = some (p, st') →
    curPairs front ++ toPairs r.reverse = stPairs st' ++ [p] := by
  intro r
  induction r with
  | nil =>
    intro front p st' h
    rcases front with _ | ⟨k, _ | ⟨v, rest⟩⟩
    · exact absurd h (by simp [refillBackRev])
    · exact absurd h (by simp [refillBackRev])
    · simp only [refillBackRev, Option.some.injEq, Prod.mk.injEq] at h
      obtain ⟨rfl, rfl⟩ := h
      simp only [List.reverse_nil, toPairs, List.append_nil, stPairs,
        curPairs, List.nil_append]
      exact pairsFrom_last rest v k
  | cons e rrest ih =>
    intro front p st' h
    obtain ⟨k, vs⟩ := e
    rcases vs with _ | ⟨v, rest⟩
    · simp only [refillBackRev] at h
      rw [List.reverse_cons, toPairs_append]
      simpa [toPairs, pairsFrom] using ih front p st' h
    · simp only [refillBackRev, Option.some.injEq, Prod.mk.injEq] at h
      obtain ⟨rfl, rfl⟩ := h
      rw [List.reverse_cons, toPairs_append]
      simp only [toPairs, List.append_nil, stPairs, curPairs]
      rw [pairsFrom_last rest v k]
      simp [List.append_assoc]

theorem refillBackRev_none : ∀ (r : List (Entry V))
    (front : Option (Nat × List V)),
    refillBackRev front r = none →
    curPairs front ++ toPairs r.reverse = [] := by
  intro r
  induction r with
  | nil =>
    intro front h
    rcases front with _ | ⟨k, _ | ⟨v, rest⟩⟩
    · rfl
    · rfl
    · exact absurd h (by simp [refillBackRev])
  | cons e rrest ih =>
    intro front h
    obtain ⟨k, vs⟩ := e
    rcases vs with _ | ⟨v, rest⟩
    · simp only [refillBackRev] at h
      rw [List.reverse_cons, toPairs_append]
      simpa [toPairs, pairsFrom] using ih front h
    · exact absurd h (by simp [refillBackRev])

theorem nextBackImpl_some {st : IterState V} {p : Nat × V}
    {st' : IterState V} (h : nextBackImpl st = some (p, st')) :
    stPairs st = stPairs st' ++ [p] := by
  obtain ⟨f, l, b⟩ := st
  rcases b with _ | ⟨k, _ | ⟨v, rest⟩⟩
  · simp only [nextBackImpl] at h
    have := refillBackRev_some l.reverse f p st' h
    rw [List.reverse_reverse] at this
    simpa [stPairs, curPairs] using this
  · simp only [nextBackImpl] at h
    have := refillBackRev_some l.reverse f p st' h
    rw [List.reverse_reverse] at this
    simpa [stPairs, curPairs, pairsFrom] using this
  · simp only [nextBackImpl, Option.some.injEq, Prod.mk.injEq] at h
    obtain ⟨rfl, rfl⟩ := h
    simp only [stPairs, curPairs]
    rw [pairsFrom_last rest v k]
    simp [List.append_assoc]

theorem nextBackImpl_none {st : IterState V} (h : nextBackImpl st = none) :
    stPairs st = [] := by
  obtain ⟨f, l, b⟩ := st
  rcases b with _ | ⟨k, _ | ⟨v, rest⟩⟩
  · simp only [nextBackImpl] at h
    have := refillBackRev_none l.reverse f h
    rw [List.reverse_reverse] at this
    simpa [stPairs, curPairs] using this
  · simp only [nextBackImpl] at h
    have := refillBackRev_none l.reverse f h
    rw [List.reverse_reverse] at this
    simpa [stPairs, curPairs, pairsFrom] using this
  · simp [nextBackImpl] at h

/-! ### Iteration: complete traversals -/

theorem forwardGo_eq : ∀ (fuel : Nat) (st : IterState V),
    stSize st ≤ fuel → forwardGo fuel st = stPairs st := by
  intro fuel
  induction fuel with
  | zero =>
    intro st h
    have h0 : (stPairs st).length = 0 := by
      rw [stPairs_length]
      omega
    rw [List.length_eq_zero] at h0
    simp [forwardGo, h0]
  | succ fuel ih =>
    intro st h
    cases hn : nextImpl st with
    | none =>
      simp only [forwardGo, hn]
      exact (nextImpl_none hn).symm
    | some pr =>
      obtain ⟨p, st'⟩ := pr
      have hst := nextImpl_some hn
      have hsz : stSize st = stSize st' + 1 := by
        rw [← stPairs_length, ← stPairs_length, hst]
        simp
      simp only [forwardGo, hn]
      rw [hst, ih st' (by omega)]

theorem backwardGo_eq : ∀ (fuel : Nat) (st : IterState V),
    stSize st ≤ fuel → backwardGo fuel st = (stPairs st).reverse := by
  intro fuel
  induction fuel with
  | zero =>
    intro st h
    have h0 : (stPairs st).length = 0 := by
      rw [stPairs_length]
      omega
    rw [List.length_eq_zero] at h0
    simp [backwardGo, h0]
  | succ fuel ih =>
    intro st h
    cases hn : nextBackImpl st with
    | none =>
      simp only [backwardGo, hn]
      rw [nextBackImpl_none hn]
      rfl
    | some pr =>
      obtain ⟨p, st'⟩ := pr
      have hst := nextBackImpl_some hn
      have hsz : stSize st = stSize st' + 1 := by
        rw [← stPairs_length, ← stPairs_length, hst]
        simp
      simp only [backwardGo, hn]
      rw [hst, ih st' (by omega)]
      simp

theorem forwardList_eq (st : IterState V) : forwardList st = stPairs st :=
  forwardGo_eq (stSize st) st le_rfl

theorem backwardList_eq (st : IterState V) :
    backwardList st = (stPairs st).reverse :=
  backwardGo_eq (stSize st) st le_rfl

theorem stPairs_iterInit (m : ContiguousMap V) :
    stPairs (iterInit m) = toPairs m := by
  simp [stPairs, iterInit, curPairs]

theorem drive_eq : ∀ (cmds : List Bool) (st : IterState V),
    (drive cmds st).1 ++
      (stPairs (drive cmds st).2.2 ++ ((drive cmds st).2.1).reverse) =
      stPairs st := by
  intro cmds
  induction cmds with
  | nil =>
    intro st
    simp [drive]
  | cons c cs ih =>
    intro st
    cases c with
    | true =>
      cases hn : nextImpl st with
      | none =>
        simp only [drive, hn, if_true]
        exact ih st
      | some pr =>
        obtain ⟨p, st'⟩ := pr
        simp only [drive, hn, if_true]
        rw [nextImpl_some hn]
        simp only [List.cons_append]
        rw [ih st']
    | false =>
      cases hn : nextBackImpl st with
      | none =>
        simp only [drive, hn, Bool.false_eq_true, if_false]
        exact ih st
      | some pr =>
        obtain ⟨p, st'⟩ := pr
        simp only [drive, hn, Bool.false_eq_true, if_false]
        rw [nextBackImpl_some hn, List.reverse_cons]
        have hih := ih st'
        rw [← hih]
        simp [List.append_assoc]

/-- C3: iteration is total, ordered and double-ended-consistent.  (1) The
forward iterator started on any map yields exactly `toPairs m`, the pairs
of the stored regions in order; (2) under the invariant, `(k, v)` is among
those pairs exactly when `get k` returns `some v`; (3) under the invariant
the yielded keys are strictly ascending; (4) the reversed iterator yields
the exact reverse of the forward traversal; (5) after any interleaving of
`next()` (`true`) and `next_back()` (`false`) calls driven from a fresh
iterator, the front-yields, then the pairs still to come, then the
back-yields in reverse concatenate to the pure forward traversal — so no
element is duplicated or lost; and (6) the claim's example map iterates
exactly as stated. -/
theorem C3_iteration_correct :
    (∀ (m : ContiguousMap V), forwardList (iterInit m) = toPairs m) ∧
    (∀ (M : Nat) (m : ContiguousMap V), Inv M m →
      ∀ (k : Nat) (v : V), ((k, v) ∈ toPairs m ↔ get m k = some v)) ∧
    (∀ (M : Nat) (m : ContiguousMap V), Inv M m →
      (toPairs m).Pairwise (fun p q => p.1 < q.1)) ∧
    (∀ (m : ContiguousMap V),
      backwardList (iterInit m) = (forwardList (iterInit m)).reverse) ∧
    (∀ (cmds : List Bool) (m : ContiguousMap V),
      (drive cmds (iterInit m)).1 ++
        (forwardList (drive cmds (iterInit m)).2.2 ++
          ((drive cmds (iterInit m)).2.1).reverse) =
        forwardList (iterInit m)) ∧
    forwardList (iterInit
        [(10, [0, 1, 2]), (20, [0, 1]), (30, [(0 : Nat)])]) =
      [(10, 0), (11, 1), (12, 2), (20, 0), (21, 1), (30, 0)] := by
  refine ⟨?_, ?_, ?_, ?_, ?_, by rfl⟩
  · intro m
    rw [forwardList_eq, stPairs_iterInit]
  · intro M m hinv k v
    rw [mem_toPairs, get_eq_some_iff hinv.1]
    constructor
    · rintro ⟨e, he, i, rfl, hv⟩
      have hlt : i < e.2.length := by
        by_contra hge
        rw [List.getElem?_eq_none (by omega)] at hv
        cases hv
      refine ⟨e, he, ?_, ?_⟩
      · unfold covers
        omega
      · have hi : e.1 + i - e.1 = i := by omega
        rw [hi]
        exact hv
    · rintro ⟨e, he, hc, hv⟩
      unfold covers at hc
      exact ⟨e, he, k - e.1, by omega, hv⟩
  · intro M m hinv
    exact toPairs_sorted hinv.1
  · intro m
    rw [forwardList_eq, backwardList_eq]
  · intro cmds m
    rw [forwardList_eq, forwardList_eq]
    exact drive_eq cmds (iterInit m)

/-- Witness for C3 at the claim's example map (`u8` keys, `M = 255`). -/
theorem C3_iteration_correct_witness :
    ((12, 2) ∈ toPairs [(10, [0, 1, 2]), (20, [0, 1]), (30, [(0 : Nat)])] ↔
      get [(10, [0, 1, 2]), (20, [0, 1]), (30, [(0 : Nat)])] 12 = some 2) ∧
    (toPairs [(10, [0, 1, 2]), (20, [0, 1]), (30, [(0 : Nat)])]).Pairwise
      (fun p q => p.1 < q.1) :=
  ⟨C3_iteration_correct.2.1 255
      [(10, [0, 1, 2]), (20, [0, 1]), (30, [(0 : Nat)])] (by decide) 12 2,
   C3_iteration_correct.2.2.1 255
      [(10, [0, 1, 2]), (20, [0, 1]), (30, [(0 : Nat)])] (by decide)⟩

end ContigMap
